import Mathlib

/-!
Verification of the coronal-hole tracking subsystem of the CHD repository
(`analysis/ml_analysis/ch_tracking/ch_db.py`, class `CoronalHoleDB`).

The development embeds the tracker shallowly:

* centroids are integer pairs and `scipy.spatial.distance.cdist` is embedded
  as the squared-Euclidean distance matrix.  The tracker only ever compares
  distances (via `min`/`argmin`/`argsort`); squaring is strictly monotone on
  nonnegative reals, and any finite configuration of rational pixel centroids
  can be rescaled by a common denominator to an integer configuration with the
  identical ordering (and tie pattern) of all pairwise distances, so every
  comparison the code can make is realized by this embedding;
* the numpy reductions used by the matching pass are embedded together with
  their error behaviour on zero-size axes (`Except`);
* the mutable `CoronalHoleDB` object is embedded as a state record threaded
  through the operations; the global numpy random generator is embedded as a
  stream `ℕ → ℕ` carried in the state, with `np.random.randint(low, high)`
  drawing `stream n % (high - low) + low`;
* the polar projector is embedded over exact reals (the source computes with
  floats; the claims under study concern its index arithmetic and sampling
  structure, which the exact-real idealization preserves).

`frame.py` and `contour.py` (the `Frame`/`Contour` containers) and the
per-frame driver loop are not part of the provided sources; they are modelled
from the specification and marked as such.
-/

namespace CHD

/-! ## Definitions -/

/-- Squared Euclidean distance between two centroids.  The source computes the
Euclidean distance via `dist.cdist`; the tracker only compares distances, and
squaring preserves every such comparison, keeping values in `ℤ`. -/
def sqDist (a b : ℤ × ℤ) : ℤ := (a.1 - b.1) ^ 2 + (a.2 - b.2) ^ 2

/-- Source `dist.cdist(self.p1.centroid_list, self.p2.centroid_list)`:
the full pairwise distance matrix, rows indexed by the first list. -/
def cdist (xs ys : List (ℤ × ℤ)) : List (List ℤ) :=
  xs.map (fun a => ys.map (fun b => sqDist a b))

/-- Minimum of a row, with junk value `0` for the empty row (the empty case is
only reached through `npMinRow`, which raises instead). -/
def minList : List ℤ → ℤ
  | [] => 0
  | x :: t => t.foldl min x

/-- Embeds `np.min` over one row: raises a `ValueError` on a zero-size row. -/
def npMinRow (r : List ℤ) : Except String ℤ :=
  if r = [] then .error ("zero-size array to reduction operation minimum")
  else .ok (minList r)

/-- Index of the first minimal entry of a row (`np.argmin` tie rule), junk `0`
on the empty row (only reached through `npArgminRow`, which raises). -/
def argminList : List ℤ → ℕ
  | [] => 0
  | x :: t => if t = [] then 0 else if minList t < x then argminList t + 1 else 0

/-- Embeds `np.argmin` over one row: raises a `ValueError` on a zero-size row. -/
def npArgminRow (r : List ℤ) : Except String ℕ :=
  if r = [] then .error ("attempt to get argmin of an empty sequence")
  else .ok (argminList r)

/-- Embeds `distance.min(axis=1)`: row-wise minimum; raises as soon as some row
is a zero-size axis (in particular whenever the second centroid list is empty
while the first is not). -/
def npMinAxis1 : List (List ℤ) → Except String (List ℤ)
  | [] => .ok []
  | r :: t => do
    let y ← npMinRow r
    let ys ← npMinAxis1 t
    return y :: ys

/-- Embeds `distance.argmin(axis=1)`: row-wise first minimal index, raising on
zero-size rows. -/
def npArgminAxis1 : List (List ℤ) → Except String (List ℕ)
  | [] => .ok []
  | r :: t => do
    let y ← npArgminRow r
    let ys ← npArgminAxis1 t
    return y :: ys

/-- Comparison used to embed `np.argsort` on the `enum`erated key list:
order by key value, ties by original index.  numpy's default `argsort` is an
unstable quicksort, so the order of equal keys is unspecified; this embedding
determinizes ties by index (every theorem proved below is invariant under the
tie order, and the concrete traces used in the theorems have no tied keys). -/
def pairLe (a b : ℕ × ℤ) : Prop := a.2 < b.2 ∨ (a.2 = b.2 ∧ a.1 ≤ b.1)

instance : DecidableRel pairLe := fun a b => by
  unfold pairLe; infer_instance

instance : IsTotal (ℕ × ℤ) pairLe := by
  constructor
  intro a b
  rcases lt_trichotomy a.2 b.2 with h | h | h
  · exact Or.inl (Or.inl h)
  · rcases le_total a.1 b.1 with h1 | h1
    · exact Or.inl (Or.inr ⟨h, h1⟩)
    · exact Or.inr (Or.inr ⟨h.symm, h1⟩)
  · exact Or.inr (Or.inl h)

instance : IsTrans (ℕ × ℤ) pairLe := by
  constructor
  rintro a b c (h | ⟨h, h1⟩) (h2 | ⟨h2, h3⟩)
  · exact Or.inl (h.trans h2)
  · exact Or.inl (h2 ▸ h)
  · exact Or.inl (h ▸ h2)
  · exact Or.inr ⟨h.trans h2, h1.trans h3⟩

/-- Embeds `np.argsort` of a key list: indices of the keys in nondecreasing key
order (see `pairLe` on the tie rule). -/
def npArgsort (xs : List ℤ) : List ℕ :=
  ((xs.enum).insertionSort pairLe).map Prod.fst

/-- Source `create_priority_queue` body, over an explicit distance matrix:
`rows = distance.min(axis=1).argsort()`,
`cols = distance.argmin(axis=1)[rows]`, `zip(rows, cols)`.
Fancy indexing an array by an index array is embedded as a `map`. -/
def create_priority_queue_mat (m : List (List ℤ)) : Except String (List (ℕ × ℕ)) := do
  let mins ← npMinAxis1 m
  let rows := npArgsort mins
  let argmins ← npArgminAxis1 m
  return rows.zip (rows.map (fun r => argmins.getD r 0))

/-- Source `priority_queue_remove_duplicates` comprehension:
`[(a, b) for i, [a, b] in enumerate(queue) if not any(c == b for _, c in queue[:i])]`. -/
def remove_duplicates (queue : List (ℕ × ℕ)) : List (ℕ × ℕ) :=
  ((queue.enum).filter
    (fun ip => !((queue.take ip.1).any (fun q => q.2 == ip.2.2)))).map Prod.snd

/-- Recursive characterization of `remove_duplicates`: scan the queue keeping
the processed prefix `pre`; a pair is kept iff no pair of the prefix has the
same `old_index`. -/
def rdAux (pre : List (ℕ × ℕ)) : List (ℕ × ℕ) → List (ℕ × ℕ)
  | [] => []
  | p :: rest =>
    if pre.any (fun q => q.2 == p.2) then rdAux (pre ++ [p]) rest
    else p :: rdAux (pre ++ [p]) rest

/-- Modelled from the spec: the `Contour` entity of `contour.py` (not among the
provided sources), restricted to the fields the tracker reads and writes during
matching: the pixel centroid used for the distance matrix (integer-scaled, see
the header), the persistent identity, and the rendering color.  `id` and
`color` are `none` until the tracker assigns them. -/
structure Contour where
  centroid : ℤ × ℤ
  id : Option ℕ := none
  color : Option (List ℕ) := none
deriving DecidableEq, Inhabited

/-- Modelled from the spec: the `Frame` container of `frame.py` (not among the
provided sources): the ordered list of contours extracted from one raster. -/
structure Frame where
  contour_list : List Contour
deriving DecidableEq, Inhabited

/-- Modelled from the spec: `Frame.centroid_list`, the list of pixel centroids
of the frame's contours, in contour order (rows/columns of `cdist`). -/
def Frame.centroid_list (f : Frame) : List (ℤ × ℤ) :=
  f.contour_list.map (·.centroid)

/-- The mutable state of the `CoronalHoleDB` object.  `rng`/`rng_pos` embed the
global numpy random generator as a stream of draws; `issued` is a ghost trace
recording, in order, every id assigned by `add_new_coronal_hole` (it is written
by no other operation and read by none). -/
structure CoronalHoleDB where
  ch_dict : Option ℕ → Option Contour
  id_list : Finset (Option ℕ)
  frame_num : ℕ
  p1 : Option Frame
  p2 : Option Frame
  p3 : Option Frame
  p4 : Option Frame
  p5 : Option Frame
  rng : ℕ → ℕ
  rng_pos : ℕ
  issued : List ℕ

/-- Embeds `CoronalHoleDB.__init__`. -/
def CoronalHoleDB.initial (rng : ℕ → ℕ) : CoronalHoleDB :=
  { ch_dict := fun _ => none
    id_list := ∅
    frame_num := 0
    p1 := none, p2 := none, p3 := none, p4 := none, p5 := none
    rng := rng
    rng_pos := 0
    issued := [] }

/-- Embeds `generate_ch_color`:
`np.random.randint(low=0, high=255, size=(3,)).tolist()`.
`high` is exclusive, so each of the three draws is uniform over `{0, …, 254}`;
a draw from the stream at position `n` is embedded as `rng n % 255`. -/
def generate_ch_color (rng : ℕ → ℕ) (pos : ℕ) : List ℕ :=
  [rng pos % 255, rng (pos + 1) % 255, rng (pos + 2) % 255]

/-- Embeds `add_coronal_hole`:
`self.ch_dict[ch.id] = ch; self.id_list.add(ch.id)`. -/
def add_coronal_hole (db : CoronalHoleDB) (ch : Contour) : CoronalHoleDB :=
  { db with
    ch_dict := fun k => if k = ch.id then some ch else db.ch_dict k
    id_list := insert ch.id db.id_list }

/-- Embeds `add_new_coronal_hole`: assign `ch.id = len(self.id_list)`, a fresh
random color, and insert into the db.  Returns the updated state together with
the updated contour (the source mutates `ch` in place). -/
def add_new_coronal_hole (db : CoronalHoleDB) (ch : Contour) : CoronalHoleDB × Contour :=
  let ch2 : Contour :=
    { ch with
      id := some db.id_list.card
      color := some (generate_ch_color db.rng db.rng_pos) }
  let db2 := { db with
    rng_pos := db.rng_pos + 3
    issued := db.issued ++ [db.id_list.card] }
  (add_coronal_hole db2 ch2, ch2)

/-- Embeds `update_previous_frames`: the source assigns `p5 = p4`, `p4 = p3`,
`p2 = p1`, `p1 = ch` — it contains no assignment to `p3`. -/
def update_previous_frames (db : CoronalHoleDB) (ch : Frame) : CoronalHoleDB :=
  { db with p5 := db.p4, p4 := db.p3, p2 := db.p1, p1 := some ch }

/-- Apply `add_new_coronal_hole` to the contour at position `ii` of the carried
contour list and store the mutated contour back (the source mutates the list
element in place). -/
def add_new_at (dbcs : CoronalHoleDB × List Contour) (ii : ℕ) :
    CoronalHoleDB × List Contour :=
  let (db2, ch2) := add_new_coronal_hole dbcs.1 (dbcs.2.getD ii default)
  (db2, dbcs.2.set ii ch2)

/-- Embeds the source's first-frame initialization pass:
`for ch in self.p1.contour_list: self.add_new_coronal_hole(ch=ch)`.  The in-place mutation of each list element
is embedded as a positional fold over the list.  With `p1 = None` the source
would raise; the driver never reaches that case. -/
def first_frame_init (db : CoronalHoleDB) : CoronalHoleDB :=
  match db.p1 with
  | none => db
  | some f =>
    let r := (List.range f.contour_list.length).foldl add_new_at (db, f.contour_list)
    { r.1 with p1 := some ⟨r.2⟩ }

/-- Embeds `compute_distance`:
`dist.cdist(self.p1.centroid_list, self.p2.centroid_list)`. -/
def compute_distance (f1 f2 : Frame) : List (List ℤ) :=
  cdist f1.centroid_list f2.centroid_list

/-- Embeds `create_priority_queue` on the two frames held in `p1`, `p2`. -/
def create_priority_queue (f1 f2 : Frame) : Except String (List (ℕ × ℕ)) :=
  create_priority_queue_mat (compute_distance f1 f2)

/-- Embeds `priority_queue_remove_duplicates` on the two frames held in `p1`,
`p2`. -/
def priority_queue_remove_duplicates (f1 f2 : Frame) : Except String (List (ℕ × ℕ)) :=
  (create_priority_queue f1 f2).map remove_duplicates

/-- The first loop of `match_coronal_holes`: for every surviving pair
`(new_index, old_index)`, copy `id` and `color` from the matched `p2` contour
onto the `p1` contour. -/
def copy_match (f2 : Frame) (cs : List Contour) (q : List (ℕ × ℕ)) : List Contour :=
  q.foldl
    (fun cs ab =>
      let src := f2.contour_list.getD ab.2 default
      cs.set ab.1 { cs.getD ab.1 default with id := src.id, color := src.color })
    cs

/-- The body of `match_coronal_holes` once the deduplicated queue is known:
copy identities onto the matched `p1` contours, then treat every unclaimed
`p1` index (`np.delete(np.arange(len(p1)), [a for a, b in queue])`) as newly
appeared. -/
def match_step (db : CoronalHoleDB) (f1 f2 : Frame) (queue : List (ℕ × ℕ)) :
    CoronalHoleDB :=
  let cs := copy_match f2 f1.contour_list queue
  let index_list := (List.range cs.length).filter
    (fun ii => !(queue.any (fun ab => ab.1 == ii)))
  let r := index_list.foldl add_new_at (db, cs)
  { r.1 with p1 := some ⟨r.2⟩ }

/-- Embeds `match_coronal_holes`: dedup the priority queue, then run the
matching body.  With a missing frame the source would raise on `None`. -/
def match_coronal_holes (db : CoronalHoleDB) : Except String CoronalHoleDB :=
  match db.p1, db.p2 with
  | some f1, some f2 =>
    (priority_queue_remove_duplicates f1 f2).map (match_step db f1 f2)
  | _, _ => .error ("AttributeError: NoneType frame")

/-- The deduplicated queue the matching pass works from (the surviving pair
list), as a function of the tracker state. -/
def queue_frames (db : CoronalHoleDB) : Except String (List (ℕ × ℕ)) :=
  match db.p1, db.p2 with
  | some f1, some f2 => priority_queue_remove_duplicates f1 f2
  | _, _ => .error ("AttributeError: NoneType frame")

/-- The ids carried by the matched `p1` contours after a matching pass, listed
in surviving-pair order (the observable the determinism claim is about). -/
def matched_ids (db : CoronalHoleDB) : Except String (List (Option ℕ)) :=
  (match_coronal_holes db).bind (fun db2 =>
    (queue_frames db).map (fun q =>
      q.map (fun ab => ((db2.p1.getD ⟨[]⟩).contour_list.getD ab.1 default).id)))

/-- Modelled from the spec: the per-frame driver (§4.3 state machine), which is
not among the provided sources.  Each ingest shifts the history window and
either initializes identities (first frame) or runs the matching pass. -/
def ingest (db : CoronalHoleDB) (f : Frame) : Except String CoronalHoleDB :=
  let db2 := { update_previous_frames db f with frame_num := db.frame_num + 1 }
  match db.p1 with
  | none => .ok (first_frame_init db2)
  | some _ => match_coronal_holes db2

/-- Modelled from the spec: run the tracker from a fresh state over a
time-ordered list of frames. -/
def chd_run (rng : ℕ → ℕ) (frames : List Frame) : Except String CoronalHoleDB :=
  frames.foldlM ingest (CoronalHoleDB.initial rng)

/-- A freshly extracted contour: boundary geometry summarized by its centroid,
no identity, no color. -/
def mkContour (c : ℤ × ℤ) : Contour := { centroid := c }

/-- Python `int()` applied to a float: truncation toward zero. -/
noncomputable def pyInt (x : ℝ) : ℤ := if 0 ≤ x then ⌊x⌋ else ⌈x⌉

/-- Python/numpy indexing of an axis of length `n`: nonnegative indices are
used directly, negative indices wrap around from the end, anything else is an
`IndexError` (`none`). -/
def pyIdx (n : ℕ) (i : ℤ) : Option ℕ :=
  if 0 ≤ i ∧ i < (n : ℤ) then some i.toNat
  else if -(n : ℤ) ≤ i ∧ i < 0 then some ((n : ℤ) + i).toNat
  else none

/-- Embeds `np.arctan2 y x`: the angle of the point `(x, y)`, in `(-π, π]`. -/
noncomputable def atan2 (y x : ℝ) : ℝ := Complex.arg (x + y * Complex.I)

/-- Embeds `np.linspace a b n` (endpoint included), entry `i`:
`a + i * (b - a) / (n - 1)`. -/
noncomputable def linspace (a b : ℝ) (n i : ℕ) : ℝ :=
  a + i * ((b - a) / ((n : ℝ) - 1))

/-- The array `theta = np.linspace(np.pi, 0, n_t)`. -/
noncomputable def thetaArr (n_t i : ℕ) : ℝ := linspace Real.pi 0 n_t i

/-- The array `phi = np.linspace(0, 2 * np.pi, n_p)`. -/
noncomputable def phiArr (n_p j : ℕ) : ℝ := linspace 0 (2 * Real.pi) n_p j

/-- Source `delta_t = theta[1] - theta[0]` — note this is negative. -/
noncomputable def delta_t (n_t : ℕ) : ℝ := thetaArr n_t 1 - thetaArr n_t 0

/-- Source `delta_p = phi[1] - phi[0]` — positive. -/
noncomputable def delta_p (n_p : ℕ) : ℝ := phiArr n_p 1 - phiArr n_p 0

/-- Source `phi_grid[neg_phi] = phi_grid[neg_phi] + 2*np.pi`: normalize an
angle from `(-π, π]` into `[0, 2π)`. -/
noncomputable def normPhi (x : ℝ) : ℝ := if x < 0 then x + 2 * Real.pi else x

/-- Forward θ grid: `np.arccos(np.outer(np.sin(theta), np.sin(phi)))`. -/
noncomputable def fwdThetaGrid (n_t n_p i j : ℕ) : ℝ :=
  Real.arccos (Real.sin (thetaArr n_t i) * Real.sin (phiArr n_p j))

/-- Forward φ grid:
`np.arctan2(np.outer(-np.cos(theta), 1), np.outer(np.sin(theta), np.cos(phi)))`,
then normalized into `[0, 2π)`. -/
noncomputable def fwdPhiGrid (n_t n_p i j : ℕ) : ℝ :=
  normPhi (atan2 (-Real.cos (thetaArr n_t i))
    (Real.sin (thetaArr n_t i) * Real.cos (phiArr n_p j)))

/-- Inverse θ grid: `np.arccos(np.outer(-np.sin(theta), np.sin(phi)))`. -/
noncomputable def bwdThetaGrid (n_t n_p i j : ℕ) : ℝ :=
  Real.arccos (-Real.sin (thetaArr n_t i) * Real.sin (phiArr n_p j))

/-- Inverse φ grid:
`np.arctan2(np.outer(np.cos(theta), 1), np.outer(np.sin(theta), np.cos(phi)))`,
normalized into `[0, 2π)`. -/
noncomputable def bwdPhiGrid (n_t n_p i j : ℕ) : ℝ :=
  normPhi (atan2 (Real.cos (thetaArr n_t i))
    (Real.sin (thetaArr n_t i) * Real.cos (phiArr n_p j)))

/-- Row sampling index used by both projections:
`int(np.abs(theta_grid[ii, jj]) / delta_t)` — a Python truncation toward zero;
`delta_t` is negative, so this is never positive, and nonzero values are
resolved by Python's negative-index wraparound. -/
noncomputable def rowIdx (n_t : ℕ) (tg : ℝ) : ℤ := pyInt (|tg| / delta_t n_t)

/-- Column sampling index: `int(phi_grid[ii, jj] / delta_p)`. -/
noncomputable def colIdx (n_p : ℕ) (pg : ℝ) : ℤ := pyInt (pg / delta_p n_p)

/-- Source `image[r, c]` on an `n_t × n_p` raster stored as a function, with
Python index semantics (`none` = `IndexError`). -/
def pyGet2 {α : Type} (n_t n_p : ℕ) (g : ℕ → ℕ → α) (r c : ℤ) : Option α :=
  match pyIdx n_t r, pyIdx n_p c with
  | some a, some b => some (g a b)
  | _, _ => none

/-- Embeds `.astype(np.uint8)` on one entry: C-style truncation toward zero,
low 8 bits. -/
noncomputable def npUint8 (x : ℝ) : ℝ := ((pyInt x % 256 : ℤ) : ℝ)

/-- Embeds `map_new_polar_projection`: rotate the sphere by +π/2 about the x
axis and resample by nearest-neighbor lookup at the truncated grid indices.
`getD 0` stands for the value after an `IndexError`; it is never exercised
(every lookup is in bounds, see `C4_theorem`). -/
noncomputable def map_new_polar_projection (n_t n_p : ℕ) (g : ℕ → ℕ → ℝ) :
    ℕ → ℕ → ℝ :=
  fun ii jj =>
    npUint8 ((pyGet2 n_t n_p g (rowIdx n_t (fwdThetaGrid n_t n_p ii jj))
      (colIdx n_p (fwdPhiGrid n_t n_p ii jj))).getD 0)

/-- Embeds `map_back_to_long_lat_rbg`: the opposite rotation.  The source maps
an `n_t × n_p × n_c` color raster applying the same pixel index to every color
channel; a single channel is modelled, the index arithmetic being
channel-independent. -/
noncomputable def map_back_to_long_lat_rbg (n_t n_p : ℕ) (g : ℕ → ℕ → ℝ) :
    ℕ → ℕ → ℝ :=
  fun ii jj =>
    npUint8 ((pyGet2 n_t n_p g (rowIdx n_t (bwdThetaGrid n_t n_p ii jj))
      (colIdx n_p (bwdPhiGrid n_t n_p ii jj))).getD 0)

/-- Modelled from the spec: the sampling-index formula as the specification
words it — `round(|θ_grid|/Δθ)`, "clamped to valid raster bounds"
(`map_new_polar_projection` is the corresponding definition from the source,
which truncates and does not clamp). -/
noncomputable def specRowIdx (n_t : ℕ) (tg : ℝ) : ℤ :=
  min ((n_t : ℤ) - 1) (max 0 (round (|tg| / delta_t n_t)))

/-- The raster used to refute the round-trip claim: content only at the
equator pixel `(1, 1)` of a `3 × 3` raster (colatitude π/2, the farthest a
pixel can be from either pole). -/
noncomputable def c8Raster : ℕ → ℕ → ℝ :=
  fun i j => if i = 1 ∧ j = 1 then 7 else 0

/-- Identity bookkeeping invariant: the ghost issuance trace is `[0, …, n-1]`
and `id_list` is exactly `{some 0, …, some (n-1)}`. -/
def IdInv (db : CoronalHoleDB) : Prop :=
  db.issued = List.range db.issued.length ∧
  db.id_list = (Finset.range db.issued.length).image some

/-- Weaker registry invariant used for preservation: the id set is a
`some`-image of an initial segment. -/
def RegInv (db : CoronalHoleDB) : Prop :=
  ∃ n, db.id_list = (Finset.range n).image some

/-- A fresh one-contour frame at pixel `(0, 0)`. -/
def frA : Frame := ⟨[mkContour (0, 0)]⟩

/-- A fresh one-contour frame at pixel `(1, 1)`. -/
def frB : Frame := ⟨[mkContour (1, 1)]⟩

/-- A fresh one-contour frame at pixel `(2, 2)`. -/
def frC : Frame := ⟨[mkContour (2, 2)]⟩

/-- A two-contour frame: one near `(1, 1)`, one far away. -/
def frB2 : Frame := ⟨[mkContour (1, 1), mkContour (80, 80)]⟩

/-- The tracker state after ingesting `frA` then `frB2` with the all-zero
random stream. -/
def c5db : CoronalHoleDB :=
  (chd_run (fun _ => 0) [frA, frB2]).toOption.getD (CoronalHoleDB.initial (fun _ => 0))

/-- A tracking-state database: one id issued so far (`0`, recorded in the
registry), `p1` holding two fresh contours, `p2` the previous frame. -/
def c3db : CoronalHoleDB :=
  { ch_dict := fun k => if k = some 0 then
      some { centroid := (0, 0), id := some 0, color := some [1, 2, 3] } else none
    id_list := {some 0}
    frame_num := 2
    p1 := some ⟨[mkContour (1, 1), mkContour (50, 50)]⟩
    p2 := some ⟨[{ centroid := (0, 0), id := some 0, color := some [1, 2, 3] }]⟩
    p3 := none, p4 := none, p5 := none
    rng := fun _ => 5
    rng_pos := 0
    issued := [0] }

/-- The result of the matching pass on `c3db`. -/
def c3db2 : CoronalHoleDB := (match_coronal_holes c3db).toOption.getD c3db

/-- A tracking-state database whose current frame `p1` has zero contours. -/
def c2dbw : CoronalHoleDB :=
  { ch_dict := fun _ => none
    id_list := ∅
    frame_num := 2
    p1 := some ⟨[]⟩
    p2 := some ⟨[mkContour (3, 3)]⟩
    p3 := none, p4 := none, p5 := none
    rng := fun _ => 0
    rng_pos := 0
    issued := [] }

/-- A tracking-state database with fixed frames, used to vary the random
stream. -/
def c9db1 : CoronalHoleDB :=
  { ch_dict := fun _ => none
    id_list := ∅
    frame_num := 2
    p1 := some ⟨[mkContour (1, 1), mkContour (9, 9)]⟩
    p2 := some ⟨[{ centroid := (0, 0), id := some 4, color := some [7, 7, 7] }]⟩
    p3 := none, p4 := none, p5 := none
    rng := fun _ => 0
    rng_pos := 0
    issued := [] }

/-- Same frames as `c9db1`, different random stream and bookkeeping state. -/
def c9db2 : CoronalHoleDB :=
  { c9db1 with
    rng := fun n => 3 * n + 1
    rng_pos := 5
    frame_num := 7
    id_list := {some 4}
    issued := [4] }

/-- The distance priority function used to instantiate the duplicate-removal
claim. -/
def c6f : ℕ × ℕ → ℚ := fun p => if p.1 = 0 then 1 else if p.1 = 1 then 2 else 3

/-! ## Lemmas and claim theorems -/

lemma foldl_min_le (t : List ℤ) :
    ∀ a : ℤ, t.foldl min a ≤ a ∧ ∀ y ∈ t, t.foldl min a ≤ y := by
  induction t with
  | nil => intro a; exact ⟨le_refl a, by simp⟩
  | cons z t ih =>
    intro a
    rw [List.foldl_cons]
    obtain ⟨h1, h2⟩ := ih (min a z)
    refine ⟨h1.trans (min_le_left a z), ?_⟩
    intro y hy
    rcases List.mem_cons.mp hy with hyz | hy
    · rw [hyz]
      exact h1.trans (min_le_right a z)
    · exact h2 y hy

lemma minList_le (r : List ℤ) : ∀ y ∈ r, minList r ≤ y := by
  intro y hy
  cases r with
  | nil => simp at hy
  | cons x t =>
    show t.foldl min x ≤ y
    rcases List.mem_cons.mp hy with h | h
    · rw [h]
      exact (foldl_min_le t x).1
    · exact (foldl_min_le t x).2 y h

lemma foldl_min_eq (t : List ℤ) (ht : t ≠ []) :
    ∀ a : ℤ, t.foldl min a = min a (minList t) := by
  induction t with
  | nil => exact absurd rfl ht
  | cons z t ih =>
    intro a
    rw [List.foldl_cons]
    by_cases ht2 : t = []
    · subst ht2
      simp [minList]
    · have hz : minList (z :: t) = min z (minList t) := by
        show t.foldl min z = _
        rw [ih ht2 z]
      rw [ih ht2 (min a z), hz, min_assoc]

lemma minList_cons (x : ℤ) (t : List ℤ) (ht : t ≠ []) :
    minList (x :: t) = min x (minList t) := by
  show t.foldl min x = _
  exact foldl_min_eq t ht x

lemma argminList_spec (r : List ℤ) (hr : r ≠ []) :
    argminList r < r.length ∧ r.getD (argminList r) 0 = minList r := by
  induction r with
  | nil => exact absurd rfl hr
  | cons x t ih =>
    by_cases ht : t = []
    · subst ht
      simp [argminList, minList]
    · obtain ⟨ih1, ih2⟩ := ih ht
      by_cases hlt : minList t < x
      · rw [argminList, if_neg ht, if_pos hlt]
        constructor
        · simpa using Nat.succ_lt_succ ih1
        · rw [List.getD_cons_succ, ih2, minList_cons x t ht]
          exact (min_eq_right hlt.le).symm
      · rw [argminList, if_neg ht, if_neg hlt]
        constructor
        · simp
        · rw [List.getD_cons_zero, minList_cons x t ht]
          exact (min_eq_left (not_lt.mp hlt)).symm

lemma npMinAxis1_ok (m : List (List ℤ)) (hm : ∀ r ∈ m, r ≠ []) :
    npMinAxis1 m = .ok (m.map minList) := by
  induction m with
  | nil => rfl
  | cons r t ih =>
    have hr : r ≠ [] := hm r (List.mem_cons_self r t)
    have h2 := ih (fun s hs => hm s (List.mem_cons_of_mem _ hs))
    have h1 : npMinRow r = .ok (minList r) := by rw [npMinRow, if_neg hr]
    show npMinRow r >>= _ = _
    rw [h1, h2]
    rfl

lemma npArgminAxis1_ok (m : List (List ℤ)) (hm : ∀ r ∈ m, r ≠ []) :
    npArgminAxis1 m = .ok (m.map argminList) := by
  induction m with
  | nil => rfl
  | cons r t ih =>
    have hr : r ≠ [] := hm r (List.mem_cons_self r t)
    have h2 := ih (fun s hs => hm s (List.mem_cons_of_mem _ hs))
    have h1 : npArgminRow r = .ok (argminList r) := by rw [npArgminRow, if_neg hr]
    show npArgminRow r >>= _ = _
    rw [h1, h2]
    rfl

lemma getD_map_of_lt {β : Type} [Inhabited β] (f : List ℤ → β) (m : List (List ℤ))
    (r : ℕ) (hr : r < m.length) (d : β) :
    (m.map f).getD r d = f (m.getD r []) := by
  rw [List.getD_eq_getElem?_getD, List.getElem?_map, List.getD_eq_getElem?_getD,
    List.getElem?_eq_getElem hr]
  simp

lemma zip_map_self (rows : List ℕ) (f : ℕ → ℕ) :
    rows.zip (rows.map f) = rows.map (fun r => (r, f r)) := by
  induction rows with
  | nil => rfl
  | cons a t ih => simp [ih]

lemma enum_snd_eq (xs : List ℤ) (p : ℕ × ℤ) (hp : p ∈ xs.enum) :
    p.1 < xs.length ∧ xs.getD p.1 0 = p.2 := by
  obtain ⟨i, a⟩ := p
  have h := List.mem_enumFrom hp
  simp only [Nat.zero_add, Nat.le_zero_eq, Nat.sub_zero] at h
  obtain ⟨-, h1, h2⟩ := h
  refine ⟨h1, ?_⟩
  rw [List.getD_eq_getElem?_getD, List.getElem?_eq_getElem h1]
  simp [h2]

lemma npArgsort_perm (xs : List ℤ) : (npArgsort xs).Perm (List.range xs.length) := by
  have h := (List.perm_insertionSort pairLe xs.enum).map Prod.fst
  rw [List.enum_map_fst] at h
  exact h

lemma npArgsort_mem_lt (xs : List ℤ) : ∀ i ∈ npArgsort xs, i < xs.length := by
  intro i hi
  have := (npArgsort_perm xs).mem_iff.mp hi
  exact List.mem_range.mp this

lemma npArgsort_sorted (xs : List ℤ) :
    (npArgsort xs).Pairwise (fun i j => xs.getD i 0 ≤ xs.getD j 0) := by
  have hs := List.sorted_insertionSort pairLe xs.enum
  rw [npArgsort, List.pairwise_map]
  refine List.Pairwise.imp_of_mem ?_ hs
  intro a b ha hb hab
  have ha2 := enum_snd_eq xs a ((List.perm_insertionSort pairLe xs.enum).mem_iff.mp ha)
  have hb2 := enum_snd_eq xs b ((List.perm_insertionSort pairLe xs.enum).mem_iff.mp hb)
  rw [ha2.2, hb2.2]
  rcases hab with h | ⟨h, -⟩
  · exact h.le
  · exact h.le

/-- Characterization of `create_priority_queue` on a matrix with no zero-size
row: it returns the argsorted rows paired with their first-minimum columns. -/
lemma create_priority_queue_mat_ok (m : List (List ℤ)) (hm : ∀ r ∈ m, r ≠ []) :
    create_priority_queue_mat m =
      .ok ((npArgsort (m.map minList)).map
        (fun r => (r, (m.map argminList).getD r 0))) := by
  rw [create_priority_queue_mat, npMinAxis1_ok m hm]
  show npArgminAxis1 m >>= _ = _
  rw [npArgminAxis1_ok m hm]
  show Except.ok _ = _
  rw [zip_map_self]

lemma any_snd (pre : List (ℕ × ℕ)) (b : ℕ) :
    (pre.any (fun q => q.2 == b) = true) ↔ ∃ x ∈ pre, x.2 = b := by
  simp

lemma remove_duplicates_general (rest pre : List (ℕ × ℕ)) :
    ((rest.enumFrom pre.length).filter
      (fun ip => !(((pre ++ rest).take ip.1).any (fun q => q.2 == ip.2.2)))).map Prod.snd
    = rdAux pre rest := by
  induction rest generalizing pre with
  | nil => simp [rdAux]
  | cons p t ih =>
    have happ : pre ++ p :: t = (pre ++ [p]) ++ t := by simp
    rw [List.enumFrom_cons, List.filter_cons]
    simp only [happ]
    have htake : (pre ++ [p] ++ t).take pre.length = pre := by
      rw [List.append_assoc]
      exact List.take_left pre ([p] ++ t)
    have hlen : pre.length + 1 = (pre ++ [p]).length := by simp
    rw [htake, hlen, apply_ite (List.map Prod.snd)]
    simp only [List.map_cons]
    rw [ih (pre ++ [p])]
    by_cases hc : pre.any (fun q => q.2 == p.2)
    · simp [rdAux, hc]
    · simp [rdAux, hc]

lemma remove_duplicates_eq_rdAux (queue : List (ℕ × ℕ)) :
    remove_duplicates queue = rdAux [] queue := by
  have h := remove_duplicates_general queue []
  simpa [remove_duplicates, List.enum] using h

lemma rdAux_sublist (q : List (ℕ × ℕ)) : ∀ pre, (rdAux pre q).Sublist q := by
  induction q with
  | nil => intro pre; simp [rdAux]
  | cons p t ih =>
    intro pre
    unfold rdAux
    by_cases hc : pre.any (fun q => q.2 == p.2)
    · simp only [hc, if_true]
      exact (ih (pre ++ [p])).cons p
    · simp only [hc, if_false]
      exact (ih (pre ++ [p])).cons₂ p

lemma rdAux_not_seen (q : List (ℕ × ℕ)) :
    ∀ pre, ∀ s ∈ rdAux pre q, ∀ x ∈ pre, x.2 ≠ s.2 := by
  induction q with
  | nil => intro pre s hs; simp [rdAux] at hs
  | cons p t ih =>
    intro pre s hs x hx
    unfold rdAux at hs
    by_cases hc : pre.any (fun q => q.2 == p.2)
    · simp only [hc, if_true] at hs
      exact ih (pre ++ [p]) s hs x (by simp [hx])
    · simp only [hc, if_false] at hs
      rcases List.mem_cons.mp hs with h | h
      · subst h
        intro hx2
        exact hc ((any_snd pre s.2).mpr ⟨x, hx, hx2⟩)
      · exact ih (pre ++ [p]) s h x (by simp [hx])

lemma rdAux_pairwise (q : List (ℕ × ℕ)) :
    ∀ pre, (rdAux pre q).Pairwise (fun a b => a.2 ≠ b.2) := by
  induction q with
  | nil => intro pre; simp [rdAux]
  | cons p t ih =>
    intro pre
    unfold rdAux
    by_cases hc : pre.any (fun q => q.2 == p.2)
    · simp only [hc, if_true]
      exact ih (pre ++ [p])
    · simp only [hc, if_false]
      refine List.Pairwise.cons ?_ (ih (pre ++ [p]))
      intro b hb
      exact rdAux_not_seen t (pre ++ [p]) b hb p (by simp)

lemma rdAux_cover (q : List (ℕ × ℕ)) :
    ∀ pre, ∀ p ∈ q, (∀ x ∈ pre, x.2 ≠ p.2) → ∃ s ∈ rdAux pre q, s.2 = p.2 := by
  induction q with
  | nil => intro pre p hp; simp at hp
  | cons h t ih =>
    intro pre p hp hfree
    unfold rdAux
    by_cases hc : pre.any (fun q => q.2 == h.2)
    · simp only [hc, if_true]
      rcases List.mem_cons.mp hp with rfl | hpt
      · rcases (any_snd pre p.2).mp hc with ⟨x, hx, hx2⟩
        exact absurd hx2 (hfree x hx)
      · refine ih (pre ++ [h]) p hpt ?_
        intro x hx
        rcases List.mem_append.mp hx with hx | hx
        · exact hfree x hx
        · rcases List.mem_singleton.mp hx with rfl
          intro he
          rcases (any_snd pre x.2).mp hc with ⟨y, hy, hy2⟩
          exact hfree y hy (hy2.trans he)
    · simp only [hc, if_false]
      by_cases hph : p.2 = h.2
      · exact ⟨h, List.mem_cons_self h _, hph.symm⟩
      · rcases List.mem_cons.mp hp with rfl | hpt
        · exact absurd rfl hph
        · obtain ⟨s, hs, hs2⟩ := ih (pre ++ [h]) p hpt (by
            intro x hx
            rcases List.mem_append.mp hx with hx | hx
            · exact hfree x hx
            · rcases List.mem_singleton.mp hx with rfl
              exact fun he => hph he.symm)
          exact ⟨s, List.mem_cons_of_mem h hs, hs2⟩

lemma rdAux_earliest (q : List (ℕ × ℕ)) :
    ∀ pre, ∀ s ∈ rdAux pre q,
      ∃ l₁ l₂, q = l₁ ++ s :: l₂ ∧ ∀ x ∈ l₁, (∃ y ∈ pre, y.2 = x.2) ∨ x.2 ≠ s.2 := by
  induction q with
  | nil => intro pre s hs; simp [rdAux] at hs
  | cons h t ih =>
    intro pre s hs
    unfold rdAux at hs
    by_cases hc : pre.any (fun q => q.2 == h.2)
    · simp only [hc, if_true] at hs
      obtain ⟨l₁, l₂, ht, hfree⟩ := ih (pre ++ [h]) s hs
      refine ⟨h :: l₁, l₂, by rw [ht]; rfl, ?_⟩
      intro x hx
      rcases List.mem_cons.mp hx with hxh | hx
      · rcases (any_snd pre h.2).mp hc with ⟨y, hy, hy2⟩
        exact Or.inl ⟨y, hy, by rw [hxh]; exact hy2⟩
      · rcases hfree x hx with ⟨y, hy, hy2⟩ | hne
        · rcases List.mem_append.mp hy with hy | hy
          · exact Or.inl ⟨y, hy, hy2⟩
          · have hyh := List.mem_singleton.mp hy
            rcases (any_snd pre h.2).mp hc with ⟨z, hz, hz2⟩
            exact Or.inl ⟨z, hz, by rw [← hy2, hyh]; exact hz2⟩
        · exact Or.inr hne
    · simp only [hc, if_false] at hs
      rcases List.mem_cons.mp hs with hsh | hs
      · exact ⟨[], t, by rw [hsh]; rfl, by simp⟩
      · obtain ⟨l₁, l₂, ht, hfree⟩ := ih (pre ++ [h]) s hs
        refine ⟨h :: l₁, l₂, by rw [ht]; rfl, ?_⟩
        intro x hx
        rcases List.mem_cons.mp hx with hxh | hx
        · refine Or.inr ?_
          rw [hxh]
          exact rdAux_not_seen t (pre ++ [h]) s hs h (by simp)
        · rcases hfree x hx with ⟨y, hy, hy2⟩ | hne
          · rcases List.mem_append.mp hy with hy | hy
            · exact Or.inl ⟨y, hy, hy2⟩
            · have hyh := List.mem_singleton.mp hy
              refine Or.inr ?_
              rw [← hy2, hyh]
              exact rdAux_not_seen t (pre ++ [h]) s hs h (by simp)
          · exact Or.inr hne

lemma delta_t_eq (n : ℕ) : delta_t n = -(Real.pi / ((n : ℝ) - 1)) := by
  unfold delta_t thetaArr linspace
  push_cast
  ring

lemma delta_p_eq (n : ℕ) : delta_p n = 2 * Real.pi / ((n : ℝ) - 1) := by
  unfold delta_p phiArr linspace
  push_cast
  ring

lemma pyInt_bounds_nonpos (x : ℝ) (k : ℤ) (hk : -(k : ℝ) ≤ x) (hx : x ≤ 0) :
    -k ≤ pyInt x ∧ pyInt x ≤ 0 := by
  unfold pyInt
  split_ifs with h
  · have hx0 : x = 0 := le_antisymm hx h
    subst hx0
    rw [Int.floor_zero]
    refine ⟨?_, le_refl 0⟩
    have h2 : -(k : ℝ) ≤ 0 := hk
    exact_mod_cast h2
  · refine ⟨?_, Int.ceil_le.mpr (by exact_mod_cast hx)⟩
    calc -k = ⌈(-(k : ℝ))⌉ := by rw [← Int.cast_neg, Int.ceil_intCast]
    _ ≤ ⌈x⌉ := Int.ceil_mono hk

lemma pyInt_bounds_nonneg (x : ℝ) (k : ℤ) (h0 : 0 ≤ x) (hk : x < (k : ℝ)) :
    0 ≤ pyInt x ∧ pyInt x < k := by
  unfold pyInt
  rw [if_pos h0]
  exact ⟨Int.floor_nonneg.mpr h0, Int.floor_lt.mpr hk⟩

lemma pyIdx_isSome_of (n : ℕ) (i : ℤ) (h1 : -(n : ℤ) ≤ i) (h2 : i < (n : ℤ)) :
    ∃ v, pyIdx n i = some v ∧ v < n := by
  unfold pyIdx
  by_cases h : 0 ≤ i ∧ i < (n : ℤ)
  · rw [if_pos h]
    exact ⟨i.toNat, rfl, by omega⟩
  · rw [if_neg h, if_pos ⟨h1, by omega⟩]
    exact ⟨((n : ℤ) + i).toNat, rfl, by omega⟩

lemma pyGet2_some {α : Type} (n_t n_p : ℕ) (g : ℕ → ℕ → α) (r c : ℤ)
    (hr1 : -(n_t : ℤ) ≤ r) (hr2 : r < (n_t : ℤ))
    (hc1 : -(n_p : ℤ) ≤ c) (hc2 : c < (n_p : ℤ)) :
    ∃ a b, a < n_t ∧ b < n_p ∧ pyGet2 n_t n_p g r c = some (g a b) := by
  obtain ⟨a, ha, ha2⟩ := pyIdx_isSome_of n_t r hr1 hr2
  obtain ⟨b, hb, hb2⟩ := pyIdx_isSome_of n_p c hc1 hc2
  refine ⟨a, b, ha2, hb2, ?_⟩
  rw [pyGet2, ha, hb]

lemma normPhi_range (x : ℝ) (h1 : -Real.pi < x) (h2 : x ≤ Real.pi) :
    0 ≤ normPhi x ∧ normPhi x < 2 * Real.pi := by
  have hpi := Real.pi_pos
  unfold normPhi
  split_ifs with h
  · exact ⟨by linarith, by linarith⟩
  · exact ⟨by linarith, by linarith⟩

lemma fwdPhiGrid_range (n_t n_p i j : ℕ) :
    0 ≤ fwdPhiGrid n_t n_p i j ∧ fwdPhiGrid n_t n_p i j < 2 * Real.pi := by
  unfold fwdPhiGrid atan2
  exact normPhi_range _ (Complex.neg_pi_lt_arg _) (Complex.arg_le_pi _)

lemma bwdPhiGrid_range (n_t n_p i j : ℕ) :
    0 ≤ bwdPhiGrid n_t n_p i j ∧ bwdPhiGrid n_t n_p i j < 2 * Real.pi := by
  unfold bwdPhiGrid atan2
  exact normPhi_range _ (Complex.neg_pi_lt_arg _) (Complex.arg_le_pi _)

lemma rowIdx_bounds (n_t : ℕ) (hn : 2 ≤ n_t) (tg : ℝ)
    (h0 : 0 ≤ tg) (h1 : tg ≤ Real.pi) :
    -((n_t : ℤ) - 1) ≤ rowIdx n_t tg ∧ rowIdx n_t tg ≤ 0 := by
  have hpi := Real.pi_pos
  have hm : (1 : ℝ) ≤ (n_t : ℝ) - 1 := by
    have h2 : (2 : ℝ) ≤ (n_t : ℝ) := by exact_mod_cast hn
    linarith
  rw [rowIdx, abs_of_nonneg h0, delta_t_eq]
  have hratio : tg / (-(Real.pi / ((n_t : ℝ) - 1))) = -(tg * ((n_t : ℝ) - 1) / Real.pi) := by
    rw [div_neg, neg_inj, div_div_eq_mul_div]
  rw [hratio]
  have hub : -(tg * ((n_t : ℝ) - 1) / Real.pi) ≤ 0 := by
    have hx : 0 ≤ tg * ((n_t : ℝ) - 1) / Real.pi := by positivity
    linarith
  have hlb : -((((n_t : ℤ) - 1) : ℤ) : ℝ) ≤ -(tg * ((n_t : ℝ) - 1) / Real.pi) := by
    have hx : tg * ((n_t : ℝ) - 1) / Real.pi ≤ (n_t : ℝ) - 1 := by
      rw [div_le_iff₀ hpi]
      nlinarith
    push_cast
    linarith
  exact pyInt_bounds_nonpos _ ((n_t : ℤ) - 1) hlb hub

lemma colIdx_bounds (n_p : ℕ) (hn : 2 ≤ n_p) (pg : ℝ)
    (h0 : 0 ≤ pg) (h1 : pg < 2 * Real.pi) :
    0 ≤ colIdx n_p pg ∧ colIdx n_p pg < (n_p : ℤ) - 1 := by
  have hpi := Real.pi_pos
  have hm : (1 : ℝ) ≤ (n_p : ℝ) - 1 := by
    have h2 : (2 : ℝ) ≤ (n_p : ℝ) := by exact_mod_cast hn
    linarith
  rw [colIdx, delta_p_eq]
  have hd : (0 : ℝ) < 2 * Real.pi / ((n_p : ℝ) - 1) := by positivity
  have hratio0 : 0 ≤ pg / (2 * Real.pi / ((n_p : ℝ) - 1)) := by positivity
  have hratio1 : pg / (2 * Real.pi / ((n_p : ℝ) - 1)) < ((((n_p : ℤ) - 1) : ℤ) : ℝ) := by
    rw [div_lt_iff₀ hd]
    push_cast
    have hcancel : ((n_p : ℝ) - 1) * (2 * Real.pi / ((n_p : ℝ) - 1)) = 2 * Real.pi := by
      field_simp
    nlinarith
  exact pyInt_bounds_nonneg _ ((n_p : ℤ) - 1) hratio0 hratio1

lemma fwd_lookup_some (n_t n_p : ℕ) (ht : 2 ≤ n_t) (hp : 2 ≤ n_p)
    (g : ℕ → ℕ → ℝ) (ii jj : ℕ) :
    ∃ a b, a < n_t ∧ b < n_p ∧
      pyGet2 n_t n_p g (rowIdx n_t (fwdThetaGrid n_t n_p ii jj))
        (colIdx n_p (fwdPhiGrid n_t n_p ii jj)) = some (g a b) := by
  obtain ⟨hr1, hr2⟩ := rowIdx_bounds n_t ht (fwdThetaGrid n_t n_p ii jj)
    (Real.arccos_nonneg _) (Real.arccos_le_pi _)
  obtain ⟨hph0, hph1⟩ := fwdPhiGrid_range n_t n_p ii jj
  obtain ⟨hc1, hc2⟩ := colIdx_bounds n_p hp _ hph0 hph1
  exact pyGet2_some n_t n_p g _ _ (by omega) (by omega) (by omega) (by omega)

lemma bwd_lookup_some (n_t n_p : ℕ) (ht : 2 ≤ n_t) (hp : 2 ≤ n_p)
    (g : ℕ → ℕ → ℝ) (ii jj : ℕ) :
    ∃ a b, a < n_t ∧ b < n_p ∧
      pyGet2 n_t n_p g (rowIdx n_t (bwdThetaGrid n_t n_p ii jj))
        (colIdx n_p (bwdPhiGrid n_t n_p ii jj)) = some (g a b) := by
  obtain ⟨hr1, hr2⟩ := rowIdx_bounds n_t ht (bwdThetaGrid n_t n_p ii jj)
    (Real.arccos_nonneg _) (Real.arccos_le_pi _)
  obtain ⟨hph0, hph1⟩ := bwdPhiGrid_range n_t n_p ii jj
  obtain ⟨hc1, hc2⟩ := colIdx_bounds n_p hp _ hph0 hph1
  exact pyGet2_some n_t n_p g _ _ (by omega) (by omega) (by omega) (by omega)

lemma delta_t_3 : delta_t 3 = -(Real.pi / 2) := by
  rw [delta_t_eq]
  norm_num

lemma delta_p_3 : delta_p 3 = Real.pi := by
  rw [delta_p_eq]
  norm_num

lemma thetaArr_3_0 : thetaArr 3 0 = Real.pi := by
  unfold thetaArr linspace
  norm_num

lemma thetaArr_3_1 : thetaArr 3 1 = Real.pi / 2 := by
  unfold thetaArr linspace
  push_cast
  ring

lemma thetaArr_3_2 : thetaArr 3 2 = 0 := by
  unfold thetaArr linspace
  push_cast
  ring

lemma phiArr_3_0 : phiArr 3 0 = 0 := by
  unfold phiArr linspace
  norm_num

lemma phiArr_3_1 : phiArr 3 1 = Real.pi := by
  unfold phiArr linspace
  push_cast
  ring

lemma atan2_zero_neg_one : atan2 0 (-1) = Real.pi := by
  have h : ((-1 : ℝ) : ℂ) + ((0 : ℝ) : ℂ) * Complex.I = -1 := by
    push_cast
    ring
  rw [atan2, h, Complex.arg_neg_one]

lemma atan2_neg_one_zero : atan2 (-1) 0 = -(Real.pi / 2) := by
  have h : ((0 : ℝ) : ℂ) + ((-1 : ℝ) : ℂ) * Complex.I = -Complex.I := by
    push_cast
    ring
  rw [atan2, h, Complex.arg_neg_I]

lemma pyInt_neg_one : pyInt (-1 : ℝ) = -1 := by
  rw [pyInt, if_neg (by norm_num)]
  rw [show ((-1 : ℝ)) = ((-1 : ℤ) : ℝ) by norm_num, Int.ceil_intCast]

lemma pyInt_zero : pyInt 0 = 0 := by
  rw [pyInt, if_pos le_rfl, Int.floor_zero]

lemma pyInt_one : pyInt 1 = 1 := by
  rw [pyInt, if_pos (by norm_num), Int.floor_one]

lemma pyInt_three_halves : pyInt (3 / 2 : ℝ) = 1 := by
  rw [pyInt, if_pos (by norm_num)]
  rw [Int.floor_eq_iff]
  constructor <;> norm_num

lemma fwdThetaGrid_3_0_0 : fwdThetaGrid 3 3 0 0 = Real.pi / 2 := by
  rw [fwdThetaGrid, phiArr_3_0, Real.sin_zero, mul_zero, Real.arccos_zero]

lemma fwdThetaGrid_3_2_1 : fwdThetaGrid 3 3 2 1 = Real.pi / 2 := by
  rw [fwdThetaGrid, thetaArr_3_2, Real.sin_zero, zero_mul, Real.arccos_zero]

lemma bwdThetaGrid_3_1_1 : bwdThetaGrid 3 3 1 1 = Real.pi / 2 := by
  rw [bwdThetaGrid, phiArr_3_1, Real.sin_pi, mul_zero, Real.arccos_zero]

lemma fwdPhiGrid_3_2_1 : fwdPhiGrid 3 3 2 1 = 3 * Real.pi / 2 := by
  have hpi := Real.pi_pos
  rw [fwdPhiGrid, thetaArr_3_2, phiArr_3_1, Real.sin_zero, Real.cos_zero, zero_mul,
    atan2_neg_one_zero, normPhi, if_pos (by linarith)]
  ring

lemma bwdPhiGrid_3_1_1 : bwdPhiGrid 3 3 1 1 = Real.pi := by
  have hpi := Real.pi_pos
  rw [bwdPhiGrid, thetaArr_3_1, phiArr_3_1, Real.cos_pi_div_two, Real.sin_pi_div_two,
    Real.cos_pi, one_mul, atan2_zero_neg_one, normPhi, if_neg (by linarith)]

lemma rowIdx_3_half_pi : rowIdx 3 (Real.pi / 2) = -1 := by
  have hpi := Real.pi_pos
  rw [rowIdx, delta_t_3, abs_of_pos (by linarith)]
  have h : Real.pi / 2 / (-(Real.pi / 2)) = -1 := by
    rw [div_neg, div_self (by linarith)]
  rw [h, pyInt_neg_one]

lemma colIdx_3_pi : colIdx 3 Real.pi = 1 := by
  rw [colIdx, delta_p_3, div_self (ne_of_gt Real.pi_pos), pyInt_one]

lemma colIdx_3_3pi2 : colIdx 3 (3 * Real.pi / 2) = 1 := by
  rw [colIdx, delta_p_3]
  have h : 3 * Real.pi / 2 / Real.pi = 3 / 2 := by
    field_simp
    ring
  rw [h, pyInt_three_halves]

lemma pyIdx_3_neg_one : pyIdx 3 (-1) = some 2 := by decide

lemma pyIdx_3_one : pyIdx 3 1 = some 1 := by decide

lemma npUint8_zero : npUint8 0 = 0 := by
  rw [npUint8, pyInt_zero]
  norm_num

lemma specRowIdx_3_half_pi : specRowIdx 3 (Real.pi / 2) = 0 := by
  have hpi := Real.pi_pos
  rw [specRowIdx, delta_t_3, abs_of_pos (by linarith)]
  have h : Real.pi / 2 / (-(Real.pi / 2)) = -1 := by
    rw [div_neg, div_self (by linarith)]
  rw [h, show ((-1 : ℝ)) = ((-1 : ℤ) : ℝ) by norm_num, round_intCast]
  norm_num

lemma map_new_3_2_1 (g : ℕ → ℕ → ℝ) :
    map_new_polar_projection 3 3 g 2 1 = npUint8 (g 2 1) := by
  show npUint8 _ = _
  rw [fwdThetaGrid_3_2_1, fwdPhiGrid_3_2_1, rowIdx_3_half_pi, colIdx_3_3pi2]
  rw [pyGet2, pyIdx_3_neg_one, pyIdx_3_one]
  rfl

lemma roundtrip_3_1_1 (g : ℕ → ℕ → ℝ) :
    map_back_to_long_lat_rbg 3 3 (map_new_polar_projection 3 3 g) 1 1 =
      npUint8 (npUint8 (g 2 1)) := by
  show npUint8 _ = _
  rw [bwdThetaGrid_3_1_1, bwdPhiGrid_3_1_1, rowIdx_3_half_pi, colIdx_3_pi]
  rw [pyGet2, pyIdx_3_neg_one, pyIdx_3_one]
  show npUint8 (map_new_polar_projection 3 3 g 2 1) = _
  rw [map_new_3_2_1]

lemma IdInv.card_eq {db : CoronalHoleDB} (h : IdInv db) :
    db.id_list.card = db.issued.length := by
  rw [h.2, Finset.card_image_of_injective _ (Option.some_injective ℕ), Finset.card_range]

lemma add_new_inv (db : CoronalHoleDB) (ch : Contour) (h : IdInv db) :
    IdInv (add_new_coronal_hole db ch).1 ∧
    (add_new_coronal_hole db ch).1.issued.length = db.issued.length + 1 := by
  have hcard := h.card_eq
  have hiss : (add_new_coronal_hole db ch).1.issued =
    db.issued ++ [db.id_list.card] := rfl
  have hids : (add_new_coronal_hole db ch).1.id_list =
    insert (some db.id_list.card) db.id_list := rfl
  have hlen : (add_new_coronal_hole db ch).1.issued.length = db.issued.length + 1 := by
    rw [hiss]
    simp
  refine ⟨⟨?_, ?_⟩, hlen⟩
  · rw [hiss, hcard]
    have hl : (db.issued ++ [db.issued.length]).length = db.issued.length + 1 := by simp
    rw [hl, List.range_succ, ← h.1]
  · rw [hids, hlen, hcard, h.2, Finset.range_succ, Finset.image_insert]

lemma foldl_add_new_at_inv (l : List ℕ) :
    ∀ (db : CoronalHoleDB) (cs : List Contour), IdInv db →
      IdInv (l.foldl add_new_at (db, cs)).1 ∧
      (l.foldl add_new_at (db, cs)).1.issued.length = db.issued.length + l.length ∧
      (l.foldl add_new_at (db, cs)).2.length = cs.length := by
  induction l with
  | nil => intro db cs h; exact ⟨h, by simp, rfl⟩
  | cons i t ih =>
    intro db cs h
    rw [List.foldl_cons]
    have hstep := add_new_inv db (cs.getD i default) h
    obtain ⟨h1, h2, h3⟩ := ih (add_new_coronal_hole db (cs.getD i default)).1
      (cs.set i (add_new_coronal_hole db (cs.getD i default)).2) hstep.1
    refine ⟨h1, ?_, ?_⟩
    · show (t.foldl add_new_at (add_new_at (db, cs) i)).1.issued.length = _
      have hx : add_new_at (db, cs) i =
        ((add_new_coronal_hole db (cs.getD i default)).1,
          cs.set i (add_new_coronal_hole db (cs.getD i default)).2) := rfl
      rw [hx, h2, hstep.2, List.length_cons]
      ring
    · show (t.foldl add_new_at (add_new_at (db, cs) i)).2.length = _
      have hx : add_new_at (db, cs) i =
        ((add_new_coronal_hole db (cs.getD i default)).1,
          cs.set i (add_new_coronal_hole db (cs.getD i default)).2) := rfl
      rw [hx, h3, List.length_set]

lemma IdInv.regInv {db : CoronalHoleDB} (h : IdInv db) : RegInv db :=
  ⟨db.issued.length, h.2⟩

lemma add_new_preserve (db : CoronalHoleDB) (ch : Contour) (h : RegInv db) :
    RegInv (add_new_coronal_hole db ch).1 ∧
    db.id_list ⊆ (add_new_coronal_hole db ch).1.id_list ∧
    ∀ k ∈ db.id_list, (add_new_coronal_hole db ch).1.ch_dict k = db.ch_dict k := by
  obtain ⟨n, hn⟩ := h
  have hcard : db.id_list.card = n := by
    rw [hn, Finset.card_image_of_injective _ (Option.some_injective ℕ), Finset.card_range]
  have hkey : some db.id_list.card ∉ db.id_list := by
    rw [hcard, hn]
    simp
  refine ⟨⟨n + 1, ?_⟩, ?_, ?_⟩
  · show insert (some db.id_list.card) db.id_list = _
    rw [hcard, hn, Finset.range_succ, Finset.image_insert]
  · intro k hk
    exact Finset.mem_insert_of_mem hk
  · intro k hk
    show (if k = some db.id_list.card then _ else db.ch_dict k) = db.ch_dict k
    rw [if_neg]
    intro he
    rw [he] at hk
    exact hkey hk

lemma foldl_add_new_preserve (l : List ℕ) :
    ∀ (db : CoronalHoleDB) (cs : List Contour), RegInv db →
      RegInv (l.foldl add_new_at (db, cs)).1 ∧
      db.id_list ⊆ (l.foldl add_new_at (db, cs)).1.id_list ∧
      ∀ k ∈ db.id_list, (l.foldl add_new_at (db, cs)).1.ch_dict k = db.ch_dict k := by
  induction l with
  | nil => intro db cs h; exact ⟨h, fun k hk => hk, fun k _ => rfl⟩
  | cons i t ih =>
    intro db cs h
    rw [List.foldl_cons]
    have hstep := add_new_preserve db (cs.getD i default) h
    have hx : add_new_at (db, cs) i =
      ((add_new_coronal_hole db (cs.getD i default)).1,
        cs.set i (add_new_coronal_hole db (cs.getD i default)).2) := rfl
    rw [hx]
    obtain ⟨h1, h2, h3⟩ := ih (add_new_coronal_hole db (cs.getD i default)).1
      (cs.set i (add_new_coronal_hole db (cs.getD i default)).2) hstep.1
    refine ⟨h1, fun k hk => h2 (hstep.2.1 hk), ?_⟩
    intro k hk
    rw [h3 k (hstep.2.1 hk), hstep.2.2 k hk]

lemma getD_set_ne {α : Type} (l : List α) (i j : ℕ) (hij : i ≠ j) (x d : α) :
    (l.set i x).getD j d = l.getD j d := by
  rw [List.getD_eq_getElem?_getD, List.getD_eq_getElem?_getD, List.getElem?_set_ne hij]

lemma getD_set_self {α : Type} (l : List α) (i : ℕ) (hi : i < l.length) (x d : α) :
    (l.set i x).getD i d = x := by
  rw [List.getD_eq_getElem?_getD, List.getElem?_set_eq_of_lt x hi]
  rfl

lemma foldl_add_new_at_getD (l : List ℕ) :
    ∀ (db : CoronalHoleDB) (cs : List Contour) (a : ℕ), a ∉ l →
      (l.foldl add_new_at (db, cs)).2.getD a default = cs.getD a default := by
  induction l with
  | nil => intro db cs a _; rfl
  | cons i t ih =>
    intro db cs a ha
    rw [List.foldl_cons]
    have hx : add_new_at (db, cs) i =
      ((add_new_coronal_hole db (cs.getD i default)).1,
        cs.set i (add_new_coronal_hole db (cs.getD i default)).2) := rfl
    rw [hx]
    have hne : i ≠ a := fun he => ha (he ▸ List.mem_cons_self i t)
    rw [ih _ _ a (fun hm => ha (List.mem_cons_of_mem i hm)), getD_set_ne _ _ _ hne]

lemma copy_match_length (f2 : Frame) (queue : List (ℕ × ℕ)) :
    ∀ cs : List Contour, (copy_match f2 cs queue).length = cs.length := by
  induction queue with
  | nil => intro cs; rfl
  | cons p t ih =>
    intro cs
    show (copy_match f2 _ t).length = _
    rw [ih, List.length_set]

lemma copy_match_getD_not_mem (f2 : Frame) (queue : List (ℕ × ℕ)) :
    ∀ (cs : List Contour) (a : ℕ), a ∉ queue.map Prod.fst →
      (copy_match f2 cs queue).getD a default = cs.getD a default := by
  induction queue with
  | nil => intro cs a _; rfl
  | cons p t ih =>
    intro cs a ha
    have hne : p.1 ≠ a := by
      intro he
      exact ha (by rw [List.map_cons, he]; exact List.mem_cons_self a _)
    show (copy_match f2 (cs.set p.1 _) t).getD a default = _
    rw [ih _ a (fun hm => ha (by rw [List.map_cons]; exact List.mem_cons_of_mem _ hm)),
      getD_set_ne _ _ _ hne]

lemma copy_match_getD (f2 : Frame) (queue : List (ℕ × ℕ)) :
    ∀ (cs : List Contour) (a b : ℕ), (queue.map Prod.fst).Nodup →
      (a, b) ∈ queue → a < cs.length →
      (copy_match f2 cs queue).getD a default =
        { cs.getD a default with
          id := (f2.contour_list.getD b default).id
          color := (f2.contour_list.getD b default).color } := by
  induction queue with
  | nil => intro cs a b _ hm; simp at hm
  | cons p t ih =>
    intro cs a b hnodup hmem ha
    rw [List.map_cons] at hnodup
    have hnd := List.nodup_cons.mp hnodup
    rcases List.mem_cons.mp hmem with hab | hab
    · -- the head pair writes position a; the tail never touches it again
      show (copy_match f2 (cs.set p.1 _) t).getD a default = _
      have hp1 : p.1 = a := by rw [← hab]
      have hpa : a ∉ t.map Prod.fst := hp1 ▸ hnd.1
      rw [copy_match_getD_not_mem f2 t _ a hpa, hp1, getD_set_self _ _ ha]
      have hp2 : p.2 = b := by rw [← hab]
      rw [hp2]
    · -- the head writes some other position; induct
      have hne : p.1 ≠ a := by
        intro he
        exact hnd.1 (he ▸ List.mem_map_of_mem Prod.fst hab)
      show (copy_match f2 (cs.set p.1 _) t).getD a default = _
      rw [ih _ a b hnd.2 hab (by rw [List.length_set]; exact ha),
        getD_set_ne _ _ _ hne]

lemma npMinAxis1_ok_inv (m : List (List ℤ)) :
    ∀ v, npMinAxis1 m = .ok v → ∀ r ∈ m, r ≠ [] := by
  induction m with
  | nil => intro v _ r hr; simp at hr
  | cons r t ih =>
    intro v h s hs
    simp only [npMinAxis1] at h
    by_cases hr : r = []
    · exfalso
      have h1 : npMinRow r =
        .error ("zero-size array to reduction operation minimum") := by
        rw [npMinRow, if_pos hr]
      rw [h1] at h
      exact Except.noConfusion h
    · rcases List.mem_cons.mp hs with hsr | hst
      · rw [hsr]; exact hr
      · have h1 : npMinRow r = .ok (minList r) := by rw [npMinRow, if_neg hr]
        rw [h1] at h
        replace h : (npMinAxis1 t >>= fun ys =>
          pure (minList r :: ys) : Except String (List ℤ)) = .ok v := h
        cases ht : npMinAxis1 t with
        | error e => rw [ht] at h; exact Except.noConfusion h
        | ok w => exact ih w ht s hst

lemma cpq_ok_rows_nonempty (m : List (List ℤ)) (q : List (ℕ × ℕ))
    (hq : create_priority_queue_mat m = .ok q) : ∀ r ∈ m, r ≠ [] := by
  simp only [create_priority_queue_mat] at hq
  cases hm : npMinAxis1 m with
  | error e => rw [hm] at hq; exact Except.noConfusion hq
  | ok mins => exact npMinAxis1_ok_inv m mins hm

lemma create_priority_queue_mat_ok_inv (m : List (List ℤ)) (q : List (ℕ × ℕ))
    (hq : create_priority_queue_mat m = .ok q) :
    q = (npArgsort (m.map minList)).map
      (fun r => (r, (m.map argminList).getD r 0)) := by
  have hm := cpq_ok_rows_nonempty m q hq
  rw [create_priority_queue_mat_ok m hm] at hq
  exact (Except.ok.inj hq).symm

lemma centroid_list_length (f : Frame) :
    f.centroid_list.length = f.contour_list.length :=
  List.length_map _ _

lemma cdist_length (xs ys : List (ℤ × ℤ)) : (cdist xs ys).length = xs.length :=
  List.length_map _ _

lemma cdist_row_length (xs ys : List (ℤ × ℤ)) :
    ∀ r ∈ cdist xs ys, r.length = ys.length := by
  intro r hr
  rcases List.mem_map.mp hr with ⟨a, -, ha⟩
  rw [← ha]
  exact List.length_map _ _

lemma cpq_props (f1 f2 : Frame) (q : List (ℕ × ℕ))
    (hq : create_priority_queue f1 f2 = .ok q) :
    (q.map Prod.fst).Nodup ∧
    ∀ p ∈ q, p.1 < f1.contour_list.length ∧ p.2 < f2.contour_list.length := by
  have hrows := cpq_ok_rows_nonempty (compute_distance f1 f2) q hq
  have hqe := create_priority_queue_mat_ok_inv (compute_distance f1 f2) q hq
  have hmlen : (compute_distance f1 f2).length = f1.contour_list.length := by
    show (cdist _ _).length = _
    rw [cdist_length, centroid_list_length]
  have hkeys : ((compute_distance f1 f2).map minList).length =
    (compute_distance f1 f2).length := List.length_map _ _
  constructor
  · have hfst : q.map Prod.fst =
      npArgsort ((compute_distance f1 f2).map minList) := by
      rw [hqe, List.map_map]
      show List.map id _ = _
      rw [List.map_id]
    rw [hfst]
    exact ((npArgsort_perm _).nodup_iff).mpr (List.nodup_range _)
  · intro p hp
    rw [hqe] at hp
    rcases List.mem_map.mp hp with ⟨r, hr, hpr⟩
    have hrlt : r < (compute_distance f1 f2).length := by
      have h := npArgsort_mem_lt _ r hr
      rw [hkeys] at h
      exact h
    have hrow_mem : (compute_distance f1 f2).getD r [] ∈ compute_distance f1 f2 := by
      rw [List.getD_eq_getElem?_getD, List.getElem?_eq_getElem hrlt]
      exact List.getElem_mem hrlt
    have hrow_len : ((compute_distance f1 f2).getD r []).length =
      f2.contour_list.length := by
      rw [cdist_row_length _ _ _ hrow_mem, centroid_list_length]
    have hrow_ne : (compute_distance f1 f2).getD r [] ≠ [] := hrows _ hrow_mem
    obtain ⟨hargbound, -⟩ := argminList_spec _ hrow_ne
    have hp1 : p.1 = r := by rw [← hpr]
    have hp2 : p.2 = (((compute_distance f1 f2).map argminList)).getD r 0 := by
      rw [← hpr]
    constructor
    · rw [hp1, ← hmlen]
      exact hrlt
    · rw [hp2, getD_map_of_lt argminList _ r hrlt, ← hrow_len]
      exact hargbound

lemma pqrd_ok_exists (f1 f2 : Frame) (queue : List (ℕ × ℕ))
    (hq : priority_queue_remove_duplicates f1 f2 = .ok queue) :
    ∃ q0, create_priority_queue f1 f2 = .ok q0 ∧ queue = remove_duplicates q0 := by
  unfold priority_queue_remove_duplicates at hq
  cases hc : create_priority_queue f1 f2 with
  | error e => rw [hc] at hq; exact Except.noConfusion hq
  | ok q0 =>
    rw [hc] at hq
    exact ⟨q0, rfl, (Except.ok.inj hq).symm⟩

lemma pqrd_props (f1 f2 : Frame) (queue : List (ℕ × ℕ))
    (hq : priority_queue_remove_duplicates f1 f2 = .ok queue) :
    (queue.map Prod.fst).Nodup ∧
    ∀ p ∈ queue, p.1 < f1.contour_list.length ∧ p.2 < f2.contour_list.length := by
  obtain ⟨q0, hc, hqe⟩ := pqrd_ok_exists f1 f2 queue hq
  obtain ⟨hnd, hprops⟩ := cpq_props f1 f2 q0 hc
  have hsub : queue.Sublist q0 := by
    rw [hqe, remove_duplicates_eq_rdAux]
    exact rdAux_sublist q0 []
  exact ⟨hnd.sublist (hsub.map Prod.fst), fun p hp => hprops p (hsub.subset hp)⟩

lemma match_char (db : CoronalHoleDB) (f1 f2 : Frame)
    (h1 : db.p1 = some f1) (h2 : db.p2 = some f2) :
    match_coronal_holes db =
      (priority_queue_remove_duplicates f1 f2).map (match_step db f1 f2) := by
  unfold match_coronal_holes
  rw [h1, h2]

lemma queue_frames_char (db : CoronalHoleDB) (f1 f2 : Frame)
    (h1 : db.p1 = some f1) (h2 : db.p2 = some f2) :
    queue_frames db = priority_queue_remove_duplicates f1 f2 := by
  unfold queue_frames
  rw [h1, h2]

lemma match_step_matched_id (db : CoronalHoleDB) (f1 f2 : Frame)
    (queue : List (ℕ × ℕ)) (a b : ℕ)
    (hnodup : (queue.map Prod.fst).Nodup) (hmem : (a, b) ∈ queue)
    (ha : a < f1.contour_list.length) :
    (((match_step db f1 f2 queue).p1.getD ⟨[]⟩).contour_list.getD a default).id =
      (f2.contour_list.getD b default).id := by
  have hnot : a ∉ (List.range (copy_match f2 f1.contour_list queue).length).filter
      (fun ii => !(queue.any (fun ab => ab.1 == ii))) := by
    intro hmem2
    have h := (List.mem_filter.mp hmem2).2
    have h2 : queue.any (fun ab => ab.1 == a) = true :=
      List.any_eq_true.mpr ⟨(a, b), hmem, by simp⟩
    rw [h2] at h
    exact Bool.noConfusion h
  show ((((List.range (copy_match f2 f1.contour_list queue).length).filter
      (fun ii => !(queue.any (fun ab => ab.1 == ii)))).foldl add_new_at
      (db, copy_match f2 f1.contour_list queue)).2.getD a default).id = _
  rw [foldl_add_new_at_getD _ _ _ a hnot,
    copy_match_getD f2 queue f1.contour_list a b hnodup hmem ha]

lemma matched_ids_char (db : CoronalHoleDB) (f1 f2 : Frame)
    (h1 : db.p1 = some f1) (h2 : db.p2 = some f2) :
    matched_ids db = (priority_queue_remove_duplicates f1 f2).map
      (fun q => q.map (fun ab => (f2.contour_list.getD ab.2 default).id)) := by
  unfold matched_ids
  rw [match_char db f1 f2 h1 h2, queue_frames_char db f1 f2 h1 h2]
  cases hq : priority_queue_remove_duplicates f1 f2 with
  | error e => rfl
  | ok queue =>
    obtain ⟨hnd, hprops⟩ := pqrd_props f1 f2 queue hq
    show Except.ok _ = Except.ok _
    congr 1
    refine List.map_congr_left ?_
    intro ab hab
    obtain ⟨ha, hb⟩ := hprops ab hab
    exact match_step_matched_id db f1 f2 queue ab.1 ab.2 hnd hab ha

lemma initial_IdInv (rng : ℕ → ℕ) : IdInv (CoronalHoleDB.initial rng) := by
  constructor
  · rfl
  · show (∅ : Finset (Option ℕ)) = (Finset.range 0).image some
    simp

lemma first_frame_inv (db : CoronalHoleDB) (f : Frame)
    (h : IdInv db) (hp : db.p1 = some f) :
    IdInv (first_frame_init db) ∧
    (first_frame_init db).issued.length =
      db.issued.length + f.contour_list.length := by
  unfold first_frame_init
  rw [hp]
  obtain ⟨h1, h2, -⟩ :=
    foldl_add_new_at_inv (List.range f.contour_list.length) db f.contour_list h
  refine ⟨⟨h1.1, h1.2⟩, ?_⟩
  show ((List.range f.contour_list.length).foldl add_new_at
    (db, f.contour_list)).1.issued.length = _
  rw [h2, List.length_range]

lemma ingest_inv (db : CoronalHoleDB) (f : Frame) (db2 : CoronalHoleDB)
    (h : IdInv db) (hi : ingest db f = .ok db2) :
    IdInv db2 ∧ db2.issued.length ≤ db.issued.length + f.contour_list.length := by
  unfold ingest at hi
  cases hp : db.p1 with
  | none =>
    rw [hp] at hi
    have hdb2 := Except.ok.inj hi
    have hU : IdInv { update_previous_frames db f with frame_num := db.frame_num + 1 } :=
      ⟨h.1, h.2⟩
    obtain ⟨hinv, hlen⟩ := first_frame_inv _ f hU rfl
    rw [← hdb2]
    exact ⟨hinv, le_of_eq hlen⟩
  | some f1 =>
    rw [hp] at hi
    replace hi : match_coronal_holes
      { update_previous_frames db f with frame_num := db.frame_num + 1 } =
      .ok db2 := hi
    have hc := match_char
      { update_previous_frames db f with frame_num := db.frame_num + 1 } f f1 rfl hp
    rw [hc] at hi
    cases hq : priority_queue_remove_duplicates f f1 with
    | error e => rw [hq] at hi; exact Except.noConfusion hi
    | ok queue =>
      rw [hq] at hi
      have hdb2 : match_step
        { update_previous_frames db f with frame_num := db.frame_num + 1 }
        f f1 queue = db2 := Except.ok.inj hi
      have hU : IdInv { update_previous_frames db f with frame_num := db.frame_num + 1 } :=
        ⟨h.1, h.2⟩
      obtain ⟨h1, h2, -⟩ := foldl_add_new_at_inv
        ((List.range (copy_match f1 f.contour_list queue).length).filter
          (fun ii => !(queue.any (fun ab => ab.1 == ii))))
        { update_previous_frames db f with frame_num := db.frame_num + 1 }
        (copy_match f1 f.contour_list queue) hU
      rw [← hdb2]
      refine ⟨⟨h1.1, h1.2⟩, ?_⟩
      show (((List.range (copy_match f1 f.contour_list queue).length).filter
          (fun ii => !(queue.any (fun ab => ab.1 == ii)))).foldl add_new_at
          (_, copy_match f1 f.contour_list queue)).1.issued.length ≤ _
      rw [h2]
      have hle : ((List.range (copy_match f1 f.contour_list queue).length).filter
          (fun ii => !(queue.any (fun ab => ab.1 == ii)))).length ≤
          f.contour_list.length := by
        calc _ ≤ (List.range (copy_match f1 f.contour_list queue).length).length :=
              List.length_filter_le _ _
        _ = f.contour_list.length := by rw [List.length_range, copy_match_length]
      show ({ update_previous_frames db f with
        frame_num := db.frame_num + 1 }).issued.length + _ ≤ _
      show db.issued.length + _ ≤ _
      omega

lemma chd_run_inv (frames : List Frame) :
    ∀ (db0 db : CoronalHoleDB), IdInv db0 → frames.foldlM ingest db0 = .ok db →
      IdInv db ∧ db.issued.length ≤ db0.issued.length +
        (frames.map (fun f => f.contour_list.length)).sum := by
  induction frames with
  | nil =>
    intro db0 db h0 hr
    have hd : db0 = db := Except.ok.inj hr
    rw [← hd]
    exact ⟨h0, by simp⟩
  | cons f t ih =>
    intro db0 db h0 hr
    rw [List.foldlM_cons] at hr
    cases hi : ingest db0 f with
    | error e => rw [hi] at hr; exact Except.noConfusion hr
    | ok db1 =>
      rw [hi] at hr
      replace hr : t.foldlM ingest db1 = .ok db := hr
      obtain ⟨h1, h2⟩ := ingest_inv db0 f db1 h0 hi
      obtain ⟨h3, h4⟩ := ih db1 db h1 hr
      refine ⟨h3, ?_⟩
      rw [List.map_cons, List.sum_cons]
      omega

/-- C1: the claim states that the history shift performed by
`update_previous_frames` moves every slot down one position, in particular
`p3 ← p2`.  The source contains no assignment to `p3`: the shift leaves `p3`
unchanged on every ingest, so after three ingests `p3` is still `None` even
though `p2` held a frame before the third shift.  (The spec's five-slot shift
is clearly the intent and the missing line a slip: `p4`/`p5` are copied from
`p3`, so all three stay `None` forever.) -/
theorem C1_theorem :
    (∀ (db : CoronalHoleDB) (f : Frame), (update_previous_frames db f).p3 = db.p3) ∧
    (chd_run (fun _ => 0) [frA, frB]).map (fun db => db.p2) =
      .ok (some ⟨[{ centroid := (0, 0), id := some 0, color := some [0, 0, 0] }]⟩) ∧
    (chd_run (fun _ => 0) [frA, frB, frC]).map (fun db => db.p3) = .ok none :=
  ⟨fun _ _ => rfl, by rfl, by rfl⟩

/-- C2 (amended): if the current frame `p1` has zero contours the matching
pass raises no error, produces zero surviving pairs, and leaves the tracker
state unchanged.  (The other half of the original claim is false, see
`C2_counterexample`.) -/
theorem C2_theorem (db : CoronalHoleDB) (f2 : Frame)
    (h1 : db.p1 = some ⟨[]⟩) (h2 : db.p2 = some f2) :
    match_coronal_holes db = .ok db ∧ queue_frames db = .ok [] := by
  have hq : priority_queue_remove_duplicates ⟨[]⟩ f2 = .ok [] := rfl
  constructor
  · rw [match_char db ⟨[]⟩ f2 h1 h2, hq]
    show Except.ok (match_step db ⟨[]⟩ f2 []) = _
    have hms : match_step db ⟨[]⟩ f2 [] = { db with p1 := some ⟨[]⟩ } := rfl
    rw [hms, ← h1]
  · rw [queue_frames_char db ⟨[]⟩ f2 h1 h2, hq]

theorem C2_witness : match_coronal_holes c2dbw = .ok c2dbw ∧ queue_frames c2dbw = .ok [] :=
  C2_theorem c2dbw ⟨[mkContour (3, 3)]⟩ rfl rfl

/-- C2 counterexample: ingesting an empty first frame and then a one-contour
frame makes the previous frame `p2` empty while `p1` is not; the distance
matrix then has a zero-size second axis and `distance.min(axis=1)` raises, so
the matching pass faults instead of treating the frame as "all new". -/
theorem C2_counterexample :
    chd_run (fun _ => 0) [⟨[]⟩, ⟨[mkContour (0, 0)]⟩] =
      .error "zero-size array to reduction operation minimum" := by
  rfl

/-- C3 (amended): the registry is written only when an id is issued: a
matching pass never updates `ch_dict` at a previously issued id, so the entry
for a matched id keeps referring to the contour recorded when the id was
created, not to the current `p1` contour. -/
theorem C3_theorem (db db2 : CoronalHoleDB) (hreg : RegInv db)
    (hm : match_coronal_holes db = .ok db2) :
    ∀ k ∈ db.id_list, db2.ch_dict k = db.ch_dict k := by
  cases hp1 : db.p1 with
  | none =>
    exfalso
    unfold match_coronal_holes at hm
    rw [hp1] at hm
    exact Except.noConfusion hm
  | some f1 =>
    cases hp2 : db.p2 with
    | none =>
      exfalso
      unfold match_coronal_holes at hm
      rw [hp1, hp2] at hm
      exact Except.noConfusion hm
    | some f2 =>
      rw [match_char db f1 f2 hp1 hp2] at hm
      cases hq : priority_queue_remove_duplicates f1 f2 with
      | error e => rw [hq] at hm; exact Except.noConfusion hm
      | ok queue =>
        rw [hq] at hm
        have hdb2 : match_step db f1 f2 queue = db2 := Except.ok.inj hm
        rw [← hdb2]
        intro k hk
        exact (foldl_add_new_preserve _ db _ hreg).2.2 k hk

theorem C3_witness : c3db2.ch_dict (some 0) = c3db.ch_dict (some 0) :=
  C3_theorem c3db c3db2 ⟨1, by decide⟩ (by rfl) (some 0) (by decide)

/-- C3 counterexample: run two frames whose single contours match.  The `p1`
contour inherits id `0`, but the registry entry for id `0` still refers to the
first frame's contour (centroid `(0, 0)`), not the current `p1` contour
(centroid `(1, 1)`): the registry is not updated on a match. -/
theorem C3_counterexample :
    (chd_run (fun _ => 0) [frA, frB]).map (fun db =>
      (db.p1.getD ⟨[]⟩).contour_list.getD 0 default) =
      .ok { centroid := (1, 1), id := some 0, color := some [0, 0, 0] } ∧
    (chd_run (fun _ => 0) [frA, frB]).map (fun db => db.ch_dict (some 0)) =
      .ok (some { centroid := (0, 0), id := some 0, color := some [0, 0, 0] }) ∧
    ({ centroid := (1, 1), id := some 0, color := some [0, 0, 0] } : Contour) ≠
      { centroid := (0, 0), id := some 0, color := some [0, 0, 0] } :=
  ⟨by rfl, by rfl, by decide⟩

/-- C5: for every run of the tracker from a fresh state, the ids ever issued
by `add_new_coronal_hole` (the ghost trace `issued`) are exactly
`0, 1, …, M-1` in that order: the set of ids is `{0, …, M-1}`, issuance is
strictly increasing from `0` with no id issued twice, `id_list` is exactly the
image of that set, its size equals the number of ids issued, and `M` is at
most the total number of contours seen. -/
theorem C5_theorem (rng : ℕ → ℕ) (frames : List Frame) (db : CoronalHoleDB)
    (hr : chd_run rng frames = .ok db) :
    db.issued = List.range db.issued.length ∧
    List.Pairwise (· < ·) db.issued ∧
    db.issued.Nodup ∧
    db.id_list = (Finset.range db.issued.length).image some ∧
    db.id_list.card = db.issued.length ∧
    db.issued.length ≤ (frames.map (fun f => f.contour_list.length)).sum := by
  obtain ⟨hinv, hlen⟩ :=
    chd_run_inv frames (CoronalHoleDB.initial rng) db (initial_IdInv rng) hr
  refine ⟨hinv.1, ?_, ?_, hinv.2, hinv.card_eq, ?_⟩
  · rw [hinv.1]
    exact List.pairwise_lt_range _
  · rw [hinv.1]
    exact List.nodup_range _
  · have h0 : (CoronalHoleDB.initial rng).issued.length = 0 := rfl
    omega

theorem C5_witness :
    c5db.issued = [0, 1] ∧
    c5db.issued = List.range c5db.issued.length ∧
    c5db.id_list.card = c5db.issued.length ∧
    c5db.issued.length ≤ ([frA, frB2].map (fun f => f.contour_list.length)).sum := by
  have h := C5_theorem (fun _ => 0) [frA, frB2] c5db (by rfl)
  exact ⟨by rfl, h.1, h.2.2.2.2.1, h.2.2.2.2.2⟩

/-- C10: every color generated by `generate_ch_color` is a list of exactly
three naturals, each strictly below `255` (the `high` bound of
`np.random.randint` is exclusive, so channel value `255` can never occur). -/
theorem C10_theorem (rng : ℕ → ℕ) (pos : ℕ) :
    (generate_ch_color rng pos).length = 3 ∧
    ∀ c ∈ generate_ch_color rng pos, c < 255 := by
  refine ⟨rfl, ?_⟩
  intro c hc
  simp only [generate_ch_color, List.mem_cons, List.not_mem_nil, or_false] at hc
  rcases hc with h | h | h <;>
    (rw [h]; exact Nat.mod_lt _ (by norm_num))

/-- C6: on any priority-ordered candidate list (nondecreasing distance along
the list), `remove_duplicates` returns a subsequence in which no two surviving
pairs share an `old_index`; each survivor is the earliest candidate in the
list claiming its `old_index`; every claimed `old_index` keeps exactly one
survivor; and a survivor's distance never exceeds that of any candidate it
displaced for the same `old_index`. -/
theorem C6_theorem (queue : List (ℕ × ℕ)) (f : ℕ × ℕ → ℚ)
    (hs : queue.Pairwise (fun p q => f p ≤ f q)) :
    (remove_duplicates queue).Sublist queue ∧
    (remove_duplicates queue).Pairwise (fun a b => a.2 ≠ b.2) ∧
    (∀ s ∈ remove_duplicates queue, ∃ l₁ l₂, queue = l₁ ++ s :: l₂ ∧
      ∀ x ∈ l₁, x.2 ≠ s.2) ∧
    (∀ p ∈ queue, ∃ s ∈ remove_duplicates queue, s.2 = p.2) ∧
    (∀ p ∈ queue, ∀ s ∈ remove_duplicates queue, s.2 = p.2 → f s ≤ f p) := by
  rw [remove_duplicates_eq_rdAux]
  refine ⟨rdAux_sublist queue [], rdAux_pairwise queue [], ?_, ?_, ?_⟩
  · intro s hs2
    obtain ⟨l₁, l₂, hq, hfree⟩ := rdAux_earliest queue [] s hs2
    refine ⟨l₁, l₂, hq, ?_⟩
    intro x hx
    rcases hfree x hx with ⟨y, hy, -⟩ | hne
    · simp at hy
    · exact hne
  · intro p hp
    exact rdAux_cover queue [] p hp (by simp)
  · intro p hp s hs2 hsp
    obtain ⟨l₁, l₂, hq, hfree⟩ := rdAux_earliest queue [] s hs2
    rw [hq] at hp hs
    rcases List.mem_append.mp hp with hpl | hpr
    · rcases hfree p hpl with ⟨y, hy, -⟩ | hne
      · simp at hy
      · exact absurd hsp.symm hne
    · rcases List.mem_cons.mp hpr with hps | hpl2
      · rw [hps]
      · have hpw := (List.pairwise_append.mp hs).2.1
        exact (List.pairwise_cons.mp hpw).1 p hpl2

theorem C6_witness :
    (remove_duplicates [(0, 1), (1, 1), (2, 2)]).Sublist [(0, 1), (1, 1), (2, 2)] ∧
    (remove_duplicates [(0, 1), (1, 1), (2, 2)]).Pairwise (fun a b => a.2 ≠ b.2) ∧
    (∀ s ∈ remove_duplicates [(0, 1), (1, 1), (2, 2)],
      ∃ l₁ l₂, [(0, 1), (1, 1), (2, 2)] = l₁ ++ s :: l₂ ∧ ∀ x ∈ l₁, x.2 ≠ s.2) ∧
    (∀ p ∈ [(0, 1), (1, 1), (2, 2)],
      ∃ s ∈ remove_duplicates [(0, 1), (1, 1), (2, 2)], s.2 = p.2) ∧
    (∀ p ∈ [(0, 1), (1, 1), (2, 2)],
      ∀ s ∈ remove_duplicates [(0, 1), (1, 1), (2, 2)], s.2 = p.2 → c6f s ≤ c6f p) :=
  C6_theorem [(0, 1), (1, 1), (2, 2)] c6f (by decide)

/-- C7: on a non-empty distance matrix between the `p1` centroids (rows) and
`p2` centroids (columns), `create_priority_queue` succeeds and returns one
pair per row — each row paired with a column realizing that row's minimum
distance — with rows ordered by their minimum distance ascending. -/
theorem C7_theorem (f1 f2 : Frame)
    (_hne : f1.contour_list ≠ []) (h2 : f2.contour_list ≠ []) :
    ∃ q, create_priority_queue f1 f2 = .ok q ∧
      (q.map Prod.fst).Perm (List.range f1.contour_list.length) ∧
      (∀ p ∈ q, p.1 < f1.contour_list.length ∧ p.2 < f2.contour_list.length ∧
        ∀ c < f2.contour_list.length,
          ((compute_distance f1 f2).getD p.1 []).getD p.2 0 ≤
            ((compute_distance f1 f2).getD p.1 []).getD c 0) ∧
      q.Pairwise (fun p p2 =>
        minList ((compute_distance f1 f2).getD p.1 []) ≤
          minList ((compute_distance f1 f2).getD p2.1 [])) := by
  have hmlen : (compute_distance f1 f2).length = f1.contour_list.length := by
    show (cdist _ _).length = _
    rw [cdist_length, centroid_list_length]
  have hrows : ∀ r ∈ compute_distance f1 f2, r ≠ [] := by
    intro r hr he
    apply h2
    apply List.length_eq_zero.mp
    rw [← centroid_list_length, ← cdist_row_length f1.centroid_list f2.centroid_list r hr, he]
    rfl
  have hok := create_priority_queue_mat_ok (compute_distance f1 f2) hrows
  refine ⟨_, hok, ?_, ?_, ?_⟩
  · rw [List.map_map]
    show (List.map id _).Perm _
    rw [List.map_id]
    have hperm := npArgsort_perm ((compute_distance f1 f2).map minList)
    rw [List.length_map, hmlen] at hperm
    exact hperm
  · intro p hp
    rcases List.mem_map.mp hp with ⟨r, hr, hpr⟩
    have hrlt : r < (compute_distance f1 f2).length := by
      have h := npArgsort_mem_lt _ r hr
      rwa [List.length_map] at h
    have hrow_mem : (compute_distance f1 f2).getD r [] ∈ compute_distance f1 f2 := by
      rw [List.getD_eq_getElem?_getD, List.getElem?_eq_getElem hrlt]
      exact List.getElem_mem hrlt
    have hrow_len : ((compute_distance f1 f2).getD r []).length =
      f2.contour_list.length := by
      rw [cdist_row_length _ _ _ hrow_mem, centroid_list_length]
    have hrow_ne := hrows _ hrow_mem
    obtain ⟨hbound, hval⟩ := argminList_spec _ hrow_ne
    have hp1 : p.1 = r := by rw [← hpr]
    have hp2 : p.2 = argminList ((compute_distance f1 f2).getD r []) := by
      rw [← hpr]
      show (List.map argminList _).getD r 0 = _
      exact getD_map_of_lt argminList _ r hrlt 0
    refine ⟨by rw [hp1, ← hmlen]; exact hrlt, ?_, ?_⟩
    · rw [hp2, ← hrow_len]
      exact hbound
    · intro c hc
      have hclen : c < ((compute_distance f1 f2).getD r []).length := by
        rw [hrow_len]
        exact hc
      have hcmem : ((compute_distance f1 f2).getD r []).getD c 0 ∈
        (compute_distance f1 f2).getD r [] := by
        rw [List.getD_eq_getElem?_getD ((compute_distance f1 f2).getD r []) c 0,
          List.getElem?_eq_getElem hclen]
        exact List.getElem_mem _
      rw [hp1, hp2, hval]
      exact minList_le _ _ hcmem
  · have hconv : (npArgsort ((compute_distance f1 f2).map minList)).Pairwise
        (fun r r2 => minList ((compute_distance f1 f2).getD r []) ≤
          minList ((compute_distance f1 f2).getD r2 [])) := by
      refine List.Pairwise.imp_of_mem ?_
        (npArgsort_sorted ((compute_distance f1 f2).map minList))
      intro a b ha hb hab
      have ha2 : a < (compute_distance f1 f2).length := by
        have h := npArgsort_mem_lt _ a ha
        rwa [List.length_map] at h
      have hb2 : b < (compute_distance f1 f2).length := by
        have h := npArgsort_mem_lt _ b hb
        rwa [List.length_map] at h
      rwa [getD_map_of_lt minList _ a ha2 0, getD_map_of_lt minList _ b hb2 0] at hab
    exact List.pairwise_map.mpr hconv

theorem C7_witness :
    ∃ q, create_priority_queue ⟨[mkContour (0, 0), mkContour (5, 5)]⟩
        ⟨[mkContour (1, 1)]⟩ = .ok q ∧
      (q.map Prod.fst).Perm (List.range
        (Frame.mk [mkContour (0, 0), mkContour (5, 5)]).contour_list.length) ∧
      (∀ p ∈ q, p.1 < (Frame.mk [mkContour (0, 0), mkContour (5, 5)]).contour_list.length ∧
        p.2 < (Frame.mk [mkContour (1, 1)]).contour_list.length ∧
        ∀ c < (Frame.mk [mkContour (1, 1)]).contour_list.length,
          ((compute_distance ⟨[mkContour (0, 0), mkContour (5, 5)]⟩
            ⟨[mkContour (1, 1)]⟩).getD p.1 []).getD p.2 0 ≤
            ((compute_distance ⟨[mkContour (0, 0), mkContour (5, 5)]⟩
              ⟨[mkContour (1, 1)]⟩).getD p.1 []).getD c 0) ∧
      q.Pairwise (fun p p2 =>
        minList ((compute_distance ⟨[mkContour (0, 0), mkContour (5, 5)]⟩
          ⟨[mkContour (1, 1)]⟩).getD p.1 []) ≤
          minList ((compute_distance ⟨[mkContour (0, 0), mkContour (5, 5)]⟩
            ⟨[mkContour (1, 1)]⟩).getD p2.1 [])) :=
  C7_theorem ⟨[mkContour (0, 0), mkContour (5, 5)]⟩ ⟨[mkContour (1, 1)]⟩
    (by decide) (by decide)

/-- C9: the matching pass is deterministic in the frames: two tracker states
holding the same `p1` and `p2` produce the same surviving pair list and the
same ids on the matched contours, whatever their random streams (and any
other bookkeeping state) are.  Randomness can therefore only influence the
colors and ids of newly appeared contours. -/
theorem C9_theorem (db1 db2 : CoronalHoleDB)
    (h1 : db1.p1 = db2.p1) (h2 : db1.p2 = db2.p2) :
    queue_frames db1 = queue_frames db2 ∧ matched_ids db1 = matched_ids db2 := by
  cases hp1 : db1.p1 with
  | none =>
    have h1b : db2.p1 = none := by rw [← h1, hp1]
    constructor
    · unfold queue_frames
      rw [hp1, h1b]
    · unfold matched_ids match_coronal_holes queue_frames
      rw [hp1, h1b]
  | some f1 =>
    cases hp2 : db1.p2 with
    | none =>
      have h1b : db2.p1 = some f1 := by rw [← h1, hp1]
      have h2b : db2.p2 = none := by rw [← h2, hp2]
      constructor
      · unfold queue_frames
        rw [hp1, hp2, h1b, h2b]
      · unfold matched_ids match_coronal_holes queue_frames
        rw [hp1, hp2, h1b, h2b]
    | some f2 =>
      have h1b : db2.p1 = some f1 := by rw [← h1, hp1]
      have h2b : db2.p2 = some f2 := by rw [← h2, hp2]
      constructor
      · rw [queue_frames_char db1 f1 f2 hp1 hp2, queue_frames_char db2 f1 f2 h1b h2b]
      · rw [matched_ids_char db1 f1 f2 hp1 hp2, matched_ids_char db2 f1 f2 h1b h2b]

theorem C9_witness :
    queue_frames c9db1 = queue_frames c9db2 ∧ matched_ids c9db1 = matched_ids c9db2 :=
  C9_theorem c9db1 c9db2 rfl rfl

/-- C4 (amended): the sampling index is `int(|θ_grid|/Δθ)` /
`int(φ_grid/Δφ)` — a truncation toward zero, not a rounding, with no clamping.
Because `Δθ < 0` the row value is never positive and is resolved by Python's
negative-index wraparound; the column value lies directly within the raster.
Every lookup of both projections is therefore in bounds (never an
`IndexError`), by wraparound rather than by clamping. -/
theorem C4_theorem (n_t n_p : ℕ) (ht : 2 ≤ n_t) (hp : 2 ≤ n_p)
    (g : ℕ → ℕ → ℝ) (ii jj : ℕ) :
    (∃ a b, a < n_t ∧ b < n_p ∧
      pyGet2 n_t n_p g (rowIdx n_t (fwdThetaGrid n_t n_p ii jj))
        (colIdx n_p (fwdPhiGrid n_t n_p ii jj)) = some (g a b)) ∧
    (∃ a b, a < n_t ∧ b < n_p ∧
      pyGet2 n_t n_p g (rowIdx n_t (bwdThetaGrid n_t n_p ii jj))
        (colIdx n_p (bwdPhiGrid n_t n_p ii jj)) = some (g a b)) ∧
    rowIdx n_t (fwdThetaGrid n_t n_p ii jj) ≤ 0 ∧
    0 ≤ colIdx n_p (fwdPhiGrid n_t n_p ii jj) := by
  refine ⟨fwd_lookup_some n_t n_p ht hp g ii jj,
    bwd_lookup_some n_t n_p ht hp g ii jj, ?_, ?_⟩
  · exact (rowIdx_bounds n_t ht (fwdThetaGrid n_t n_p ii jj)
      (Real.arccos_nonneg _) (Real.arccos_le_pi _)).2
  · exact (colIdx_bounds n_p hp _ (fwdPhiGrid_range n_t n_p ii jj).1
      (fwdPhiGrid_range n_t n_p ii jj).2).1

theorem C4_witness :
    (∃ a b, a < 3 ∧ b < 3 ∧
      pyGet2 3 3 (fun _ _ => (0 : ℝ)) (rowIdx 3 (fwdThetaGrid 3 3 0 0))
        (colIdx 3 (fwdPhiGrid 3 3 0 0)) = some ((fun _ _ => (0 : ℝ)) a b)) ∧
    (∃ a b, a < 3 ∧ b < 3 ∧
      pyGet2 3 3 (fun _ _ => (0 : ℝ)) (rowIdx 3 (bwdThetaGrid 3 3 0 0))
        (colIdx 3 (bwdPhiGrid 3 3 0 0)) = some ((fun _ _ => (0 : ℝ)) a b)) ∧
    rowIdx 3 (fwdThetaGrid 3 3 0 0) ≤ 0 ∧
    0 ≤ colIdx 3 (fwdPhiGrid 3 3 0 0) :=
  C4_theorem 3 3 (by norm_num) (by norm_num) (fun _ _ => 0) 0 0

/-- C4 counterexample: at grid point `(0, 0)` of a `3 × 3` raster the forward
θ grid value is exactly π/2; the code's row index is the truncation `-1`,
resolved by wraparound to row `2`, while the claimed formula — rounding then
clamping into bounds — yields row `0`.  The index is negative and wrapped,
not clamped. -/
theorem C4_counterexample :
    rowIdx 3 (fwdThetaGrid 3 3 0 0) = -1 ∧
    pyIdx 3 (rowIdx 3 (fwdThetaGrid 3 3 0 0)) = some 2 ∧
    specRowIdx 3 (fwdThetaGrid 3 3 0 0) = 0 ∧
    rowIdx 3 (fwdThetaGrid 3 3 0 0) ≠ specRowIdx 3 (fwdThetaGrid 3 3 0 0) := by
  refine ⟨by rw [fwdThetaGrid_3_0_0, rowIdx_3_half_pi],
    by rw [fwdThetaGrid_3_0_0, rowIdx_3_half_pi]; rfl,
    by rw [fwdThetaGrid_3_0_0, specRowIdx_3_half_pi], ?_⟩
  rw [fwdThetaGrid_3_0_0, rowIdx_3_half_pi, specRowIdx_3_half_pi]
  decide

/-- C8 (amended): the projection round trip is nearest-neighbor value
transport — every output pixel of `inverse(forward(raster))` is the uint8
cast of some pixel of the original raster — but it is not the identity
(see `C8_counterexample`). -/
theorem C8_theorem (n_t n_p : ℕ) (ht : 2 ≤ n_t) (hp : 2 ≤ n_p)
    (g : ℕ → ℕ → ℝ) (ii jj : ℕ) :
    ∃ a b, a < n_t ∧ b < n_p ∧
      map_back_to_long_lat_rbg n_t n_p (map_new_polar_projection n_t n_p g) ii jj =
        npUint8 (npUint8 (g a b)) := by
  obtain ⟨a2, b2, ha2, hb2, hx⟩ :=
    bwd_lookup_some n_t n_p ht hp (map_new_polar_projection n_t n_p g) ii jj
  obtain ⟨a, b, ha, hb, hy⟩ := fwd_lookup_some n_t n_p ht hp g a2 b2
  refine ⟨a, b, ha, hb, ?_⟩
  show npUint8 ((pyGet2 _ _ _ _ _).getD 0) = _
  rw [hx]
  show npUint8 (npUint8 ((pyGet2 _ _ _ _ _).getD 0)) = _
  rw [hy]
  rfl

theorem C8_witness :
    ∃ a b, a < 3 ∧ b < 3 ∧
      map_back_to_long_lat_rbg 3 3 (map_new_polar_projection 3 3 c8Raster) 0 0 =
        npUint8 (npUint8 (c8Raster a b)) :=
  C8_theorem 3 3 (by norm_num) (by norm_num) c8Raster 0 0

/-- C8 counterexample: a `3 × 3` raster whose only content is at the equator
pixel `(1, 1)` — colatitude exactly π/2, as far from both poles as possible —
is not recovered by the round trip: the round trip reads pixel `(2, 1)`
(value `0`) where the original holds `7`. -/
theorem C8_counterexample :
    map_back_to_long_lat_rbg 3 3 (map_new_polar_projection 3 3 c8Raster) 1 1 ≠
      c8Raster 1 1 ∧
    c8Raster 1 1 = 7 ∧ thetaArr 3 1 = Real.pi / 2 := by
  refine ⟨?_, by norm_num [c8Raster], thetaArr_3_1⟩
  rw [roundtrip_3_1_1]
  have h1 : c8Raster 2 1 = (0 : ℝ) := by norm_num [c8Raster]
  have h2 : c8Raster 1 1 = (7 : ℝ) := by norm_num [c8Raster]
  rw [h1, h2, npUint8_zero, npUint8_zero]
  norm_num

end CHD

